import Mathlib

/-!
# Verification of the Capstone Group-Matcher core

Shallow embedding of the team formation and refinement engine:
* `compute_compatibility`, `form_teams` (src/main.py),
* `move_student` (src/tui.py),
* `simple_sentiment`, `aggregate_sentiment`, `score_team` (src/ml_matching.py),
together with proofs of the claims about them.

Python floats are modelled as exact rationals, Python ints as `Int`/`Nat`,
Python exceptions as an explicit `Except` error type.
-/

namespace GroupMatcher

/-- Skill levels for the four fixed skill-category keys produced by
`parse_students` (frontend/backend/database/testing).  The Python code stores
them in a dict that always holds exactly these four keys. -/
structure Skills where
  frontend : ℤ
  backend : ℤ
  database : ℤ
  testing : ℤ
deriving DecidableEq, Repr

/-- A student record as built by `parse_students` / `Student.__init__`
(src/student.py).  Ranks and skill levels are Python ints (`ℤ`);
availability is a Python float, modelled as `ℚ`. -/
structure Student where
  name : String
  email : String
  project_ranks : List ℤ
  teammate_ranks : List String
  skills : Skills
  availability : ℚ
  workstyle : String
  meeting_pref : String
deriving DecidableEq, Repr

/-- Round to the nearest integer, ties to even — the rounding mode of
Python's builtin `round`. -/
def roundHalfEven (q : ℚ) : ℤ :=
  let f := Rat.floor q
  let r := q - f
  if r < 1/2 then f
  else if 1/2 < r then f + 1
  else if f % 2 = 0 then f else f + 1

/-- `round(x, 2)` from Python. -/
def round2 (q : ℚ) : ℚ := (roundHalfEven (q * 100) : ℚ) / 100

/-- `sum(abs(a - b) for a, b in zip(r1, r2))` — the project-rank distance of
`compute_compatibility` (src/main.py line 86).  Python's `zip` truncates to
the shorter list, as does `List.zip`. -/
def projDiff (r1 r2 : List ℤ) : ℤ := ((r1.zip r2).map (fun p => |p.1 - p.2|)).sum

/-- `sum(abs(s1.skills[k] - s2.skills[k]) for k in s1.skills)` (src/main.py
line 94); the dict always holds the four fixed keys. -/
def skillDiff (a b : Skills) : ℤ :=
  |a.frontend - b.frontend| + |a.backend - b.backend| +
    |a.database - b.database| + |a.testing - b.testing|

/-- `compute_compatibility` from src/main.py lines 77–108: weighted sum of the
four normalized sub-scores, rounded to two decimals. -/
def compute_compatibility (s1 s2 : Student) : ℚ :=
  let project_score : ℚ :=
    100 - ((projDiff s1.project_ranks s2.project_ranks : ℚ) / (5 * 5) * 100)
  let mutual_pref := s2.name ∈ s1.teammate_ranks ∧ s1.name ∈ s2.teammate_ranks
  let teammate_score : ℚ :=
    if mutual_pref then 100
    else if s2.name ∈ s1.teammate_ranks ∨ s1.name ∈ s2.teammate_ranks then 50
    else 0
  let skill_score : ℚ :=
    100 - ((skillDiff s1.skills s2.skills : ℚ) / (4 * 5) * 100)
  let avail_score : ℚ :=
    max 0 (100 - (|s1.availability - s2.availability| / 40 * 100))
  round2 ((4/10) * project_score + (3/10) * teammate_score +
    (2/10) * skill_score + (1/10) * avail_score)

lemma projDiff_comm (r1 r2 : List ℤ) : projDiff r1 r2 = projDiff r2 r1 := by
  induction r1 generalizing r2 with
  | nil => cases r2 <;> rfl
  | cons x xs ih =>
    cases r2 with
    | nil => rfl
    | cons y ys =>
      simp only [projDiff, List.zip_cons_cons, List.map_cons, List.sum_cons] at *
      rw [abs_sub_comm, ih ys]

lemma skillDiff_comm (a b : Skills) : skillDiff a b = skillDiff b a := by
  unfold skillDiff
  rw [abs_sub_comm a.frontend, abs_sub_comm a.backend, abs_sub_comm a.database,
    abs_sub_comm a.testing]

/-- C2: the pairwise compatibility score is symmetric. -/
theorem compute_compatibility_comm (a b : Student) :
    compute_compatibility a b = compute_compatibility b a := by
  unfold compute_compatibility
  rw [projDiff_comm, skillDiff_comm, abs_sub_comm a.availability]
  by_cases h1 : b.name ∈ a.teammate_ranks <;>
    by_cases h2 : a.name ∈ b.teammate_ranks <;>
      simp [h1, h2]

/-- A concrete student with an empty teammate-preference list. -/
def loner : Student :=
  { name := "A", email := "a@x", project_ranks := [1, 2, 3, 4, 5],
    teammate_ranks := [], skills := ⟨3, 3, 3, 3⟩, availability := 10,
    workstyle := "", meeting_pref := "" }

/-- C3 (counterexample): a student with an empty teammate-preference list has
self-compatibility 70, not 100 — the mutual-preference bonus is 0 because the
student does not list their own name. -/
theorem self_compat_ne_100 :
    compute_compatibility loner loner = 70 ∧ (70 : ℚ) ≠ 100 := by
  constructor
  · with_unfolding_all decide
  · norm_num

/-- C3 (amended): if the compared attributes (name, project ranks, teammate
ranks, skills, availability) of `a` and `b` coincide, the compatibility score
is 100 when `a`'s name occurs in `b`'s teammate list (so the teammate bonus is
mutual) and 70 otherwise; in particular `compat(a,a)` is 70 whenever the
student does not list their own name. -/
theorem compat_of_identical (a b : Student)
    (hname : a.name = b.name)
    (hranks : a.project_ranks = b.project_ranks)
    (htr : a.teammate_ranks = b.teammate_ranks)
    (hsk : a.skills = b.skills)
    (hav : a.availability = b.availability) :
    compute_compatibility a b =
      if a.name ∈ b.teammate_ranks then 100 else 70 := by
  unfold compute_compatibility
  rw [← hname, ← hranks, ← htr, ← hsk, ← hav]
  have hproj : projDiff a.project_ranks a.project_ranks = 0 := by
    have : ∀ r : List ℤ, projDiff r r = 0 := by
      intro r
      induction r with
      | nil => rfl
      | cons x xs ih =>
        simp only [projDiff, List.zip_cons_cons, List.map_cons, List.sum_cons] at *
        simpa using ih
    exact this _
  have hskill : skillDiff a.skills a.skills = 0 := by
    simp [skillDiff]
  rw [hproj, hskill]
  by_cases h : a.name ∈ a.teammate_ranks
  · simp only [h, and_self, if_true, sub_self, abs_zero]
    with_unfolding_all decide
  · simp only [h, and_self, or_self, if_false, sub_self, abs_zero]
    with_unfolding_all decide

theorem compat_of_identical_witness :
    compute_compatibility loner loner = if loner.name ∈ loner.teammate_ranks then 100 else 70 :=
  compat_of_identical loner loner rfl rfl rfl rfl rfl

/-! ## Sentiment scoring (src/ml_matching.py) -/

/-- The character class `[a-zA-Z']` of the token regex in `simple_sentiment`
(src/ml_matching.py line 59). -/
def isWordChar (c : Char) : Bool := c.isAlpha || c = '\''

/-- Maximal runs of word characters, i.e. `re.findall(r"[a-zA-Z']+", s)`.
The accumulator holds the current run in reverse. -/
def tokensAux : List Char → List Char → List (List Char)
  | [], acc => if acc.isEmpty then [] else [acc.reverse]
  | c :: cs, acc =>
    if isWordChar c then tokensAux cs (c :: acc)
    else if acc.isEmpty then tokensAux cs []
    else acc.reverse :: tokensAux cs []

/-- `re.findall(r"[a-zA-Z']+", (text or "").lower())`. -/
def pyWords (s : String) : List String := (tokensAux s.toLower.data []).map List.asString

/-- The positive lexicon `POS_WORDS` (src/ml_matching.py lines 48–51). -/
def POS_WORDS : List String :=
  ["great", "good", "excellent", "love", "cooperative", "teamwork", "supportive",
   "helpful", "reliable", "positive", "productive", "motivated", "enthusiastic",
   "respectful", "friendly", "aligned"]

/-- The negative lexicon `NEG_WORDS` (src/ml_matching.py lines 52–55). -/
def NEG_WORDS : List String :=
  ["bad", "poor", "hate", "lazy", "conflict", "toxic", "unreliable", "late",
   "negative", "unmotivated", "disrespectful", "hostile", "argumentative", "misaligned"]

/-- `simple_sentiment` (src/ml_matching.py lines 57–65): lexicon sentiment in
[-1, 1]. -/
def simple_sentiment (text : String) : ℚ :=
  let ws := pyWords text
  if ws = [] then 0
  else
    let pos : ℕ := (ws.filter (fun w => w ∈ POS_WORDS)).length
    let neg : ℕ := (ws.filter (fun w => w ∈ NEG_WORDS)).length
    let score : ℚ := ((pos : ℚ) - (neg : ℚ)) / ((max 1 (pos + neg) : ℕ) : ℚ)
    max (-1) (min 1 score)

/-- `aggregate_sentiment` (src/ml_matching.py lines 67–71): mean sentiment of
the free-text answers. -/
def aggregate_sentiment (texts : List String) : ℚ :=
  if texts = [] then 0
  else
    let vals := texts.map simple_sentiment
    if vals = [] then 0 else vals.sum / (vals.length : ℚ)

/-- `TeamFeatures` (src/ml_matching.py lines 73–77); the two feature dicts
always carry exactly the keys read by `score_team`, so they are modelled as
fields. -/
structure TeamFeatures where
  free_texts : List String
  skills_coverage : ℚ
  availability_harmony : ℚ
  pairwise_synergy : ℚ
deriving DecidableEq, Repr

/-- The text score used by `AIMatcher.score_team` on the fallback path with no
sklearn pipeline (src/ml_matching.py lines 186–188): the aggregate sentiment
mapped from [-1, 1] to [0, 1]. -/
def textProxy (texts : List String) : ℚ := (aggregate_sentiment texts + 1) / 2

/-- `AIMatcher.score_team` (src/ml_matching.py lines 171–206) with the default
heuristic weights, zero bias and no trained pipeline (the state of
`AIMatcher()` when no weights file or sklearn model is present). -/
def score_team (feats : TeamFeatures) : ℚ :=
  let raw := (25/100) * textProxy feats.free_texts
    + (30/100) * feats.skills_coverage
    + (20/100) * feats.availability_harmony
    + (25/100) * feats.pairwise_synergy
    + 0
  max 0 (min 1 raw)

lemma simple_sentiment_bounds (t : String) :
    -1 ≤ simple_sentiment t ∧ simple_sentiment t ≤ 1 := by
  unfold simple_sentiment
  by_cases h : pyWords t = []
  · simp [h]
  · simp only [h, if_false]
    constructor
    · exact le_max_left _ _
    · exact max_le (by norm_num) (min_le_left _ _)

lemma simple_sentiment_of_unrecognized (t : String)
    (h : ∀ w ∈ pyWords t, w ∉ POS_WORDS ∧ w ∉ NEG_WORDS) :
    simple_sentiment t = 0 := by
  unfold simple_sentiment
  by_cases he : pyWords t = []
  · simp [he]
  · have hpos : (pyWords t).filter (fun w => w ∈ POS_WORDS) = [] := by
      simp only [List.filter_eq_nil_iff, decide_eq_true_eq]
      exact fun w hw => (h w hw).1
    have hneg : (pyWords t).filter (fun w => w ∈ NEG_WORDS) = [] := by
      simp only [List.filter_eq_nil_iff, decide_eq_true_eq]
      exact fun w hw => (h w hw).2
    simp [he, hpos, hneg]

lemma aggregate_sentiment_bounds (texts : List String) :
    -1 ≤ aggregate_sentiment texts ∧ aggregate_sentiment texts ≤ 1 := by
  unfold aggregate_sentiment
  by_cases h : texts = []
  · simp [h]
  · simp only [h, if_false]
    by_cases h2 : texts.map simple_sentiment = []
    · simp [h2]
    · simp only [h2, if_false]
      have hlen : 0 < ((texts.map simple_sentiment).length : ℚ) := by
        have : texts.map simple_sentiment ≠ [] := h2
        have := List.length_pos.mpr this
        exact_mod_cast this
      set l := texts.map simple_sentiment with hl
      have hub : l.sum ≤ (l.length : ℚ) * 1 := by
        have := List.sum_le_card_nsmul l 1 (by
          intro x hx
          obtain ⟨t, _, rfl⟩ := List.mem_map.mp (hl ▸ hx)
          exact (simple_sentiment_bounds t).2)
        simpa [nsmul_eq_mul, mul_comm] using this
      have hlb : (l.length : ℚ) * (-1) ≤ l.sum := by
        have := List.card_nsmul_le_sum l (-1) (by
          intro x hx
          obtain ⟨t, _, rfl⟩ := List.mem_map.mp (hl ▸ hx)
          exact (simple_sentiment_bounds t).1)
        simpa [nsmul_eq_mul, mul_comm] using this
      constructor
      · rw [le_div_iff₀ hlen]
        linarith
      · rw [div_le_one hlen]
        linarith

/-- C9 (counterexample): free text with no recognized lexicon token yields a
[0,1]-mapped text score of 1/2, not 0. -/
theorem textProxy_unrecognized_ne_zero :
    textProxy ["xyz"] = 1/2 ∧ (1/2 : ℚ) ≠ 0 := by
  constructor
  · with_unfolding_all decide
  · norm_num

/-- C9 (amended): the text-sentiment proxy used by `score_team` lies in [0, 1];
the raw lexicon sentiment `(pos − neg) / (pos + neg)` is 0 when the free-text
fields contain no recognized token, so the mapped proxy is then 1/2 (not 0). -/
theorem textProxy_spec (texts : List String) :
    (0 ≤ textProxy texts ∧ textProxy texts ≤ 1) ∧
      ((∀ t ∈ texts, ∀ w ∈ pyWords t, w ∉ POS_WORDS ∧ w ∉ NEG_WORDS) →
        aggregate_sentiment texts = 0 ∧ textProxy texts = 1/2) := by
  constructor
  · obtain ⟨h1, h2⟩ := aggregate_sentiment_bounds texts
    unfold textProxy
    constructor <;> [linarith; linarith]
  · intro h
    have hz : aggregate_sentiment texts = 0 := by
      unfold aggregate_sentiment
      by_cases he : texts = []
      · simp [he]
      · have hmap : texts.map simple_sentiment = List.replicate texts.length 0 := by
          rw [List.eq_replicate_iff]
          refine ⟨by simp, ?_⟩
          intro x hx
          obtain ⟨t, ht, rfl⟩ := List.mem_map.mp hx
          exact simple_sentiment_of_unrecognized t (h t ht)
        simp [he, hmap, List.sum_replicate]
    refine ⟨hz, ?_⟩
    unfold textProxy
    rw [hz]
    norm_num

theorem textProxy_spec_witness :
    (0 ≤ textProxy ["zzz qqq"] ∧ textProxy ["zzz qqq"] ≤ 1) ∧
      (aggregate_sentiment ["zzz qqq"] = 0 ∧ textProxy ["zzz qqq"] = 1/2) :=
  ⟨(textProxy_spec ["zzz qqq"]).1,
    (textProxy_spec ["zzz qqq"]).2 (by with_unfolding_all decide)⟩

/-! ## Manual moves (src/tui.py) -/

/-- The case-insensitive name match of `move_student` (src/tui.py line 56). -/
def matchesName (student_name : String) (s : Student) : Bool :=
  s.name.toLower == student_name.toLower

/-- `next((i for i, s in enumerate(team) if pred s), None)` followed by
`team.pop(pos)`: locate the first matching member and remove it, returning the
member and the remaining team. -/
def popFirst (pred : Student → Bool) : List Student → Option (Student × List Student)
  | [] => none
  | x :: xs =>
    if pred x then some (x, xs)
    else (popFirst pred xs).map (fun r => (r.1, x :: r.2))

/-- `move_student` (src/tui.py lines 51–60).  Indices are Python ints (`ℤ`);
the pop-then-append mutation is modelled by updating the team list at the
source index first and reading the destination team afterwards, which also
captures the aliasing when both indices coincide. -/
def move_student (teams : List (List Student)) (student_name : String)
    (from_idx to_idx : ℤ) : Bool × List (List Student) :=
  if from_idx < 0 ∨ (teams.length : ℤ) ≤ from_idx ∨
      to_idx < 0 ∨ (teams.length : ℤ) ≤ to_idx then
    (false, teams)
  else
    let f := from_idx.toNat
    let t := to_idx.toNat
    let team_from := teams.getD f []
    match popFirst (matchesName student_name) team_from with
    | none => (false, teams)
    | some (m, rest) =>
      let teams1 := teams.set f rest
      let team_to := teams1.getD t []
      (true, teams1.set t (team_to ++ [m]))

lemma popFirst_eq_none (pred : Student → Bool) (l : List Student)
    (h : ∀ s ∈ l, pred s = false) : popFirst pred l = none := by
  induction l with
  | nil => rfl
  | cons x xs ih =>
    have hx := h x (List.mem_cons_self x xs)
    simp only [popFirst, hx, Bool.false_eq_true, if_false]
    rw [ih (fun s hs => h s (List.mem_cons_of_mem _ hs))]
    rfl

lemma popFirst_eq_some (pred : Student → Bool) (l : List Student)
    (m : Student) (rest : List Student) (h : popFirst pred l = some (m, rest)) :
    ∃ pre post, l = pre ++ m :: post ∧ rest = pre ++ post ∧
      pred m = true ∧ ∀ x ∈ pre, pred x = false := by
  induction l generalizing rest with
  | nil => exact Option.noConfusion h
  | cons x xs ih =>
    by_cases hx : pred x
    · simp only [popFirst, hx, if_true, Option.some.injEq, Prod.mk.injEq] at h
      exact ⟨[], xs, by simp [h.1.symm], by simp [h.2.symm], h.1 ▸ hx, by simp⟩
    · simp only [popFirst, hx, if_false, Bool.false_eq_true] at h
      cases hrec : popFirst pred xs with
      | none => rw [hrec] at h; simp at h
      | some r =>
        obtain ⟨m1, rest1⟩ := r
        rw [hrec] at h
        simp only [Option.map_some', Option.some.injEq, Prod.mk.injEq] at h
        obtain ⟨hm, hr⟩ := h
        subst hm
        obtain ⟨pre, post, h1, h2, h3, h4⟩ := ih rest1 hrec
        refine ⟨x :: pre, post, by simp [h1], ?_, h3, ?_⟩
        · rw [← hr, h2, List.cons_append]
        · intro y hy
          rcases List.mem_cons.mp hy with rfl | hy'
          · simpa using hx
          · exact h4 y hy'

/-- C7: `move_student` returns `False` and leaves every team unchanged when an
index is out of range or no member of the source team matches the requested
name case-insensitively. -/
theorem move_student_fail (teams : List (List Student)) (nm : String) (f t : ℤ)
    (h : (f < 0 ∨ (teams.length : ℤ) ≤ f ∨ t < 0 ∨ (teams.length : ℤ) ≤ t) ∨
      ∀ s ∈ teams.getD f.toNat [], s.name.toLower ≠ nm.toLower) :
    move_student teams nm f t = (false, teams) := by
  unfold move_student
  by_cases hb : f < 0 ∨ (teams.length : ℤ) ≤ f ∨ t < 0 ∨ (teams.length : ℤ) ≤ t
  · rw [if_pos hb]
  · rw [if_neg hb]
    rcases h with h | h
    · exact absurd h hb
    · have hnone : popFirst (matchesName nm) (teams.getD f.toNat []) = none :=
        popFirst_eq_none _ _ (fun s hs => by
          simp only [matchesName, beq_eq_false_iff_ne, ne_eq]
          exact h s hs)
      simp only [hnone]

theorem move_student_fail_witness :
    move_student [[loner]] "Zora" 0 0 = (false, [[loner]]) :=
  move_student_fail [[loner]] "Zora" 0 0 (Or.inr (fun s hs => by
    have hg : ([[loner]] : List (List Student)).getD (0 : ℤ).toNat [] = [loner] := rfl
    rw [hg] at hs
    rw [List.mem_singleton.mp hs]
    with_unfolding_all decide))

/-- All members of a team list, counted with multiplicity. -/
def teamsMultiset : List (List Student) → Multiset Student
  | [] => 0
  | l :: ls => (l : Multiset Student) + teamsMultiset ls

lemma coe_flatten_eq (L : List (List Student)) :
    (L.flatten : Multiset Student) = teamsMultiset L := by
  induction L with
  | nil => rfl
  | cons l ls ih =>
    simp only [List.flatten_cons, teamsMultiset]
    rw [← Multiset.coe_add, ih]

lemma teamsMultiset_set (L : List (List Student)) (i : ℕ) (x : List Student)
    (h : i < L.length) :
    teamsMultiset (L.set i x) + (L[i] : Multiset Student) =
      teamsMultiset L + (x : Multiset Student) := by
  induction L generalizing i with
  | nil => simp at h
  | cons l ls ih =>
    cases i with
    | zero =>
      simp only [List.set_cons_zero, teamsMultiset, List.getElem_cons_zero]
      abel
    | succ n =>
      have hn : n < ls.length := by simpa using h
      simp only [List.set_cons_succ, teamsMultiset, List.getElem_cons_succ]
      rw [add_assoc, add_assoc, ih n hn]

/-- C8 (counterexample): a "successful" move with equal source and destination
indices returns `True`, yet the moved student is still present in the source
team. -/
theorem move_student_self_move :
    (move_student [[loner]] "A" 0 0).1 = true ∧
      loner ∈ (move_student [[loner]] "A" 0 0).2.getD (0 : ℤ).toNat [] := by
  with_unfolding_all decide

/-- A second concrete student, used to exercise a genuine cross-team move. -/
def bob : Student :=
  { name := "B", email := "b@x", project_ranks := [0, 0, 0, 0, 0],
    teammate_ranks := [], skills := ⟨0, 0, 0, 0⟩, availability := 0,
    workstyle := "", meeting_pref := "" }

/-- C8 (amended): a successful `move_student` between two distinct team
indices, on teams with no duplicate membership, conserves the total member
count, removes the moved student from the source team, places them exactly
once in the destination team, and preserves the no-duplicate-membership
invariant. -/
theorem move_student_success_spec (teams ts' : List (List Student)) (nm : String)
    (f t : ℤ) (hft : f ≠ t) (hnd : teams.flatten.Nodup)
    (h : move_student teams nm f t = (true, ts')) :
    (ts'.map List.length).sum = (teams.map List.length).sum ∧
    ∃ m : Student, m.name.toLower = nm.toLower ∧
      m ∉ ts'.getD f.toNat [] ∧ (ts'.getD t.toNat []).count m = 1 ∧
      ts'.flatten.Nodup := by
  unfold move_student at h
  by_cases hb : f < 0 ∨ (teams.length : ℤ) ≤ f ∨ t < 0 ∨ (teams.length : ℤ) ≤ t
  · rw [if_pos hb] at h
    simp at h
  · rw [if_neg hb] at h
    push_neg at hb
    obtain ⟨hf0, hfl, ht0, htl⟩ := hb
    have hF : f.toNat < teams.length := by omega
    have hT : t.toNat < teams.length := by omega
    have hFT : f.toNat ≠ t.toNat := by omega
    cases hpop : popFirst (matchesName nm) (teams.getD f.toNat []) with
    | none =>
      simp only [hpop] at h
      simp at h
    | some r =>
      obtain ⟨m, rest⟩ := r
      simp only [hpop, Prod.mk.injEq, true_and] at h
      obtain ⟨pre, post, hsrc, hrest, hpred, -⟩ :=
        popFirst_eq_some _ _ _ _ hpop
      rw [List.getD_eq_getElem _ _ hF] at hsrc
      -- names for the source and destination teams
      have hgetTo : (teams.set f.toNat rest).getD t.toNat [] = teams[t.toNat] := by
        rw [List.getD_eq_getElem _ _ (by simpa using hT), List.getElem_set_ne hFT]
      rw [hgetTo] at h
      -- the final team list
      have hts' : ts' = (teams.set f.toNat rest).set t.toNat (teams[t.toNat] ++ [m]) :=
        h.symm
      subst hts'
      -- component nodup and pairwise disjointness
      obtain ⟨hcomp, hdisj⟩ := List.nodup_flatten.mp hnd
      have hsrc_nodup : (pre ++ m :: post).Nodup := by
        rw [← hsrc]; exact hcomp _ (List.getElem_mem hF)
      obtain ⟨hpre_nodup, hmpost_nodup, hpre_disj⟩ := List.nodup_append.mp hsrc_nodup
      have hm_pre : m ∉ pre := fun hmem => hpre_disj hmem (List.mem_cons_self m post)
      have hm_post : m ∉ post := (List.nodup_cons.mp hmpost_nodup).1
      have hm_rest : m ∉ rest := by
        rw [hrest]
        intro hmem
        rcases List.mem_append.mp hmem with hc | hc
        · exact hm_pre hc
        · exact hm_post hc
      have hm_src : m ∈ teams[f.toNat] := by
        rw [hsrc]; exact List.mem_append.mpr (Or.inr (List.mem_cons_self m post))
      have hm_dst : m ∉ teams[t.toNat] := by
        intro hmem
        rcases Nat.lt_or_ge f.toNat t.toNat with hlt | hge
        · exact (List.pairwise_iff_getElem.mp hdisj _ _ hF hT hlt) hm_src hmem
        · have hlt : t.toNat < f.toNat := by omega
          exact (List.pairwise_iff_getElem.mp hdisj _ _ hT hF hlt).symm hm_src hmem
      -- multiset bookkeeping: the flattened membership is preserved
      have hM1 : teamsMultiset (teams.set f.toNat rest) + (teams[f.toNat] : Multiset Student) =
          teamsMultiset teams + (rest : Multiset Student) :=
        teamsMultiset_set teams f.toNat rest hF
      have hM2 : teamsMultiset ((teams.set f.toNat rest).set t.toNat (teams[t.toNat] ++ [m])) +
          (teams[t.toNat] : Multiset Student) =
          teamsMultiset (teams.set f.toNat rest) +
            ((teams[t.toNat] ++ [m] : List Student) : Multiset Student) := by
        have h0 := teamsMultiset_set (teams.set f.toNat rest) t.toNat
          (teams[t.toNat] ++ [m]) (by simpa using hT)
        simp only [List.getElem_set_ne hFT] at h0
        exact h0
      have hsrc_m : (teams[f.toNat] : Multiset Student) =
          m ::ₘ (rest : Multiset Student) := by
        rw [hsrc, hrest, ← Multiset.coe_add, ← Multiset.coe_add, ← Multiset.cons_coe,
          Multiset.add_cons]
      have happ_m : ((teams[t.toNat] ++ [m] : List Student) : Multiset Student) =
          m ::ₘ (teams[t.toNat] : Multiset Student) := by
        rw [← Multiset.coe_add, Multiset.coe_singleton, add_comm, Multiset.singleton_add]
      have hMeq : teamsMultiset ((teams.set f.toNat rest).set t.toNat (teams[t.toNat] ++ [m])) =
          teamsMultiset teams := by
        rw [happ_m] at hM2
        rw [hsrc_m] at hM1
        have h1 : teamsMultiset (teams.set f.toNat rest) + m ::ₘ (rest : Multiset Student) =
            teamsMultiset teams + (rest : Multiset Student) := hM1
        rw [Multiset.add_cons] at h1
        have h2 : m ::ₘ teamsMultiset (teams.set f.toNat rest) + (rest : Multiset Student) =
            teamsMultiset teams + (rest : Multiset Student) := by
          rw [Multiset.cons_add]; exact h1
        have h3 : m ::ₘ teamsMultiset (teams.set f.toNat rest) = teamsMultiset teams :=
          add_right_cancel h2
        calc teamsMultiset ((teams.set f.toNat rest).set t.toNat (teams[t.toNat] ++ [m]))
            = m ::ₘ teamsMultiset (teams.set f.toNat rest) := by
              have := hM2
              rw [Multiset.add_cons, ← Multiset.cons_add] at this
              exact add_right_cancel this
          _ = teamsMultiset teams := h3
      have hperm : List.Perm
          ((teams.set f.toNat rest).set t.toNat (teams[t.toNat] ++ [m])).flatten
          teams.flatten := by
        rw [← Multiset.coe_eq_coe, coe_flatten_eq, coe_flatten_eq, hMeq]
      refine ⟨?_, m, ?_, ?_, ?_, ?_⟩
      · rw [← List.length_flatten, ← List.length_flatten]
        exact hperm.length_eq
      · simpa [matchesName] using hpred
      · have hlen : f.toNat < ((teams.set f.toNat rest).set t.toNat
            (teams[t.toNat] ++ [m])).length := by simpa using hF
        rw [List.getD_eq_getElem _ _ hlen, List.getElem_set_ne (Ne.symm hFT),
          List.getElem_set_self]
        exact hm_rest
      · have hlen : t.toNat < ((teams.set f.toNat rest).set t.toNat
            (teams[t.toNat] ++ [m])).length := by simpa using hT
        rw [List.getD_eq_getElem _ _ hlen, List.getElem_set_self]
        rw [List.count_append]
        rw [List.count_eq_zero.mpr hm_dst]
        simp
      · exact hperm.nodup_iff.mpr hnd

theorem move_student_success_witness :
    (([[], [bob, loner]] : List (List Student)).map List.length).sum =
      (([[loner], [bob]] : List (List Student)).map List.length).sum ∧
    ∃ m : Student, m.name.toLower = ("A" : String).toLower ∧
      m ∉ ([[], [bob, loner]] : List (List Student)).getD (0 : ℤ).toNat [] ∧
      (([[], [bob, loner]] : List (List Student)).getD (1 : ℤ).toNat []).count m = 1 ∧
      ([[], [bob, loner]] : List (List Student)).flatten.Nodup :=
  move_student_success_spec [[loner], [bob]] [[], [bob, loner]] "A" 0 1
    (by decide) (by with_unfolding_all decide) (by with_unfolding_all decide)

/-! ## Team formation and project allocation (src/main.py form_teams) -/

/-- The exceptions `form_teams` can raise: `insufficientRoster` is the
explicit `ValueError` for n < 2p (line 117); `zeroDivision` models Python's
`ZeroDivisionError` (`n // 0`, or an average over an empty team);
`selectionFailed` models the `TypeError` of iterating `best_combo` when it is
still `None` (line 148); `indexError` models `IndexError` from
`s.project_ranks[i]` on a too-short rank list (line 161). -/
inductive FormError where
  | insufficientRoster
  | zeroDivision
  | selectionFailed
  | indexError
deriving DecidableEq, Repr

/-- `itertools.combinations(l, k)`, in Python's emission order; each element
is an order-preserving selection of `k` elements of `l`. -/
def combinations {α : Type} : ℕ → List α → List (List α)
  | 0, _ => [[]]
  | _ + 1, [] => []
  | k + 1, x :: xs => (combinations k xs).map (x :: ·) ++ combinations (k + 1) xs

/-- `itertools.combinations(l, 2)`, flattened to ordered pairs. -/
def allPairs {α : Type} : List α → List (α × α)
  | [] => []
  | x :: xs => xs.map (fun y => (x, y)) ++ allPairs xs

/-- The pairwise-compatibility dict of lines 120–122, keyed by name pairs in
roster order.  A later binding shadows an earlier one, as in a Python dict. -/
def buildCompat (students : List Student) : List ((String × String) × ℚ) :=
  (allPairs students).map
    (fun q => ((q.1.name, q.2.name), compute_compatibility q.1 q.2))

/-- `d.get(k)`: the value of the last binding of `k`, if any. -/
def dictGet (m : List ((String × String) × ℚ)) (k : String × String) : Option ℚ :=
  (m.reverse.find? (fun e => e.1 = k)).map (fun e => e.2)

/-- Python `x or y` where `x` is an optional float: both `None` and `0.0` are
falsy and fall through to `y`. -/
def pyOrQ (x : Option ℚ) (y : ℚ) : ℚ :=
  match x with
  | none => y
  | some v => if v = 0 then y else v

/-- `compat.get((a.name, b.name)) or compat.get((b.name, a.name)) or 0`
(line 139). -/
def pairScore (dict : List ((String × String) × ℚ)) (a b : Student) : ℚ :=
  pyOrQ (dictGet dict (a.name, b.name)) (pyOrQ (dictGet dict (b.name, a.name)) 0)

/-- `avg_score = sum(pair_scores) / len(pair_scores)` (lines 138–142).  The
division is only reached with combinations of size ≥ 2 (see the team-size
bound proved below), where `pair_scores` is nonempty. -/
def comboScore (dict : List ((String × String) × ℚ)) (combo : List Student) : ℚ :=
  let pair_scores := (allPairs combo).map (fun q => pairScore dict q.1 q.2)
  pair_scores.sum / (pair_scores.length : ℚ)

/-- One step of the strict-improvement scan of lines 143–145. -/
def selStep (dict : List ((String × String) × ℚ))
    (acc : Option (List Student) × ℚ) (c : List Student) : Option (List Student) × ℚ :=
  if comboScore dict c > acc.2 then (some c, comboScore dict c) else acc

/-- The scan over all candidate combinations, starting from
`best_combo = None, best_score = -1` (lines 133–145). -/
def selectBest (dict : List ((String × String) × ℚ)) (cands : List (List Student)) :
    Option (List Student) × ℚ :=
  cands.foldl (selStep dict) (none, -1)

/-- `for s in best_combo: remaining.remove(s)` (lines 147–149). -/
def removeAll (l c : List Student) : List Student :=
  c.foldl (fun acc s => acc.erase s) l

/-- `[base_size + 1 if i < extras else base_size for i in range(num_projects)]`
(lines 124–127). -/
def teamSizes (n p : ℕ) : List ℕ :=
  (List.range p).map (fun i => if i < n % p then n / p + 1 else n / p)

/-- The greedy assembly loop of lines 129–154: one team per target size, each
the best-scoring combination from the remaining pool. -/
def assembleLoop (dict : List ((String × String) × ℚ)) :
    List ℕ → List Student → Except FormError (List (ℚ × List Student))
  | [], _ => .ok []
  | size :: rest, remaining =>
    match selectBest dict (combinations size remaining) with
    | (none, _) => .error .selectionFailed
    | (some combo, score) =>
      (assembleLoop dict rest (removeAll remaining combo)).map
        (fun ts => (round2 score, combo) :: ts)

/-- A fully-formed team as returned by `form_teams`
(`{"compatibility": …, "members": …, "project": …}`). -/
structure TeamR where
  compatibility : ℚ
  members : List Student
  project : String
deriving DecidableEq, Repr

/-- Little-endian decimal digits with fuel (`n` itself suffices as fuel). -/
def natDigitsAux : ℕ → ℕ → List Char
  | 0, _ => []
  | fuel + 1, n => if n = 0 then [] else Nat.digitChar (n % 10) :: natDigitsAux fuel (n / 10)

/-- Decimal rendering of a natural number — the effect of Python's
`f"{best_project}"` on an int. -/
def natStr (n : ℕ) : String :=
  if n = 0 then "0" else List.asString (natDigitsAux n n).reverse

/-- `f"{best_project}"`: `best_project` is either an int or `None`. -/
def pyStr : Option ℕ → String
  | none => "None"
  | some k => natStr k

/-- `sum(s.project_ranks[i] for s in members)`, raising `IndexError` on a
too-short rank list (line 161). -/
def ranksAt (i : ℕ) : List Student → Except FormError (List ℤ)
  | [] => .ok []
  | s :: ss =>
    match s.project_ranks[i]? with
    | none => .error .indexError
    | some r => (ranksAt i ss).map (fun rs => r :: rs)

/-- `[sum(s.project_ranks[i] for s in t["members"]) / len(t["members"]) for i
in range(num_projects)]` (lines 160–163), raising `ZeroDivisionError` on an
empty team. -/
def avgScoresOver (members : List Student) : List ℕ → Except FormError (List ℚ)
  | [] => .ok []
  | i :: is =>
    match ranksAt i members with
    | .error e => .error e
    | .ok rs =>
      if members.length = 0 then .error .zeroDivision
      else (avgScoresOver members is).map
        (fun vs => ((rs.map (fun r : ℤ => (r : ℚ))).sum / (members.length : ℚ)) :: vs)

/-- The per-team project preference values of one team. -/
def teamValues (p : ℕ) (members : List Student) : Except FormError (List ℚ) :=
  avgScoresOver members (List.range p)

/-- The pure value the code averages for project index `i` (0-based): the mean
of the members' raw ranks `project_ranks[i]`. -/
def avgRank (members : List Student) (i : ℕ) : ℚ :=
  ((members.map (fun s => ((s.project_ranks.getD i 0 : ℤ) : ℚ))).sum) / (members.length : ℚ)

/-- The inner scan of lines 170–175: highest-value project not yet claimed,
first index wins ties; `best_value` starts at -1 and `best_project` at `None`.
`assigned` is the claimed set (which may contain `None`). -/
def pickBestAux (assigned : List (Option ℕ)) :
    List ℚ → ℕ → Option ℕ × ℚ → Option ℕ × ℚ
  | [], _, acc => acc
  | v :: vs, i, acc =>
    if some (i + 1) ∉ assigned ∧ v > acc.2 then
      pickBestAux assigned vs (i + 1) (some (i + 1), v)
    else pickBestAux assigned vs (i + 1) acc

/-- The allocation loop of lines 166–177, in team (assembly) order. -/
def allocLoop (p : ℕ) : List (Option ℕ) → List (ℚ × List Student) →
    Except FormError (List TeamR)
  | _, [] => .ok []
  | assigned, t :: ts =>
    match teamValues p t.2 with
    | .error e => .error e
    | .ok scores =>
      let best := (pickBestAux assigned scores 0 (none, -1)).1
      (allocLoop p (best :: assigned) ts).map
        (fun rest =>
          { compatibility := t.1, members := t.2, project := pyStr best } :: rest)

/-- The unique-project assignment step of lines 156–177. -/
def allocate (ts : List (ℚ × List Student)) (p : ℕ) : Except FormError (List TeamR) :=
  allocLoop p [] ts

/-- `form_teams` (src/main.py lines 110–179); in the script it is called with
the default `num_projects = 5`. -/
def form_teams (students : List Student) (num_projects : ℕ) :
    Except FormError (List TeamR) :=
  if students.length < num_projects * 2 then .error .insufficientRoster
  else if num_projects = 0 then .error .zeroDivision
  else
    match assembleLoop (buildCompat students)
        (teamSizes students.length num_projects) students with
    | .error e => .error e
    | .ok ts => allocate ts num_projects

/-! ### Combinatorial facts about the assembly search -/

lemma mem_combinations_length {α : Type} :
    ∀ (k : ℕ) (l c : List α), c ∈ combinations k l → c.length = k := by
  intro k l
  induction l generalizing k with
  | nil =>
    intro c hc
    cases k with
    | zero => simp only [combinations, List.mem_singleton] at hc; simp [hc]
    | succ => simp [combinations] at hc
  | cons x xs ih =>
    intro c hc
    cases k with
    | zero => simp only [combinations, List.mem_singleton] at hc; simp [hc]
    | succ k =>
      simp only [combinations, List.mem_append, List.mem_map] at hc
      rcases hc with ⟨c', hc', rfl⟩ | hc
      · simp [ih k c' hc']
      · exact ih (k + 1) c hc

lemma mem_combinations_sublist {α : Type} :
    ∀ (k : ℕ) (l c : List α), c ∈ combinations k l → c.Sublist l := by
  intro k l
  induction l generalizing k with
  | nil =>
    intro c hc
    cases k with
    | zero => simp only [combinations, List.mem_singleton] at hc; simp [hc]
    | succ => simp [combinations] at hc
  | cons x xs ih =>
    intro c hc
    cases k with
    | zero =>
      simp only [combinations, List.mem_singleton] at hc
      simp [hc]
    | succ k =>
      simp only [combinations, List.mem_append, List.mem_map] at hc
      rcases hc with ⟨c', hc', rfl⟩ | hc
      · exact List.Sublist.cons₂ x (ih k c' hc')
      · exact List.Sublist.cons x (ih (k + 1) c hc)

lemma take_mem_combinations {α : Type} :
    ∀ (k : ℕ) (l : List α), k ≤ l.length → l.take k ∈ combinations k l := by
  intro k l
  induction l generalizing k with
  | nil =>
    intro h
    have hk : k = 0 := Nat.le_zero.mp (by simpa using h)
    subst hk
    simp [combinations]
  | cons x xs ih =>
    intro h
    cases k with
    | zero => simp [combinations]
    | succ k =>
      simp only [List.take_succ_cons, combinations, List.mem_append, List.mem_map]
      exact Or.inl ⟨xs.take k, ih k (by simpa using h), rfl⟩

lemma allPairs_ne_nil {α : Type} (c : List α) (h : 2 ≤ c.length) : allPairs c ≠ [] := by
  match c, h with
  | a :: b :: rest, _ =>
    simp [allPairs]

lemma allPairs_mem {α : Type} :
    ∀ (l : List α) (x y : α), (x, y) ∈ allPairs l → x ∈ l ∧ y ∈ l := by
  intro l
  induction l with
  | nil => intro x y h; simp [allPairs] at h
  | cons a as ih =>
    intro x y h
    simp only [allPairs, List.mem_append, List.mem_map] at h
    rcases h with ⟨b, hb, hxy⟩ | h
    · injection hxy with h1 h2
      subst h1; subst h2
      exact ⟨List.mem_cons_self _ _, List.mem_cons_of_mem _ hb⟩
    · obtain ⟨hx, hy⟩ := ih x y h
      exact ⟨List.mem_cons_of_mem _ hx, List.mem_cons_of_mem _ hy⟩

/-! ### Selection-scan facts -/

lemma selFold_some (dict : List ((String × String) × ℚ)) :
    ∀ (cands : List (List Student)) (acc : Option (List Student) × ℚ) (c : List Student),
      (cands.foldl (selStep dict) acc).1 = some c → acc.1 = some c ∨ c ∈ cands := by
  intro cands
  induction cands with
  | nil => intro acc c h; exact Or.inl h
  | cons d ds ih =>
    intro acc c h
    rw [List.foldl_cons] at h
    rcases ih (selStep dict acc d) c h with h' | h'
    · unfold selStep at h'
      by_cases himp : comboScore dict d > acc.2
      · rw [if_pos himp] at h'
        exact Or.inr (List.mem_cons.mpr (Or.inl (Option.some.inj h').symm))
      · rw [if_neg himp] at h'
        exact Or.inl h'
    · exact Or.inr (List.mem_cons_of_mem _ h')

lemma selFold_acc_some (dict : List ((String × String) × ℚ)) :
    ∀ (cands : List (List Student)) (acc : Option (List Student) × ℚ) (c0 : List Student),
      acc.1 = some c0 → ∃ c, (cands.foldl (selStep dict) acc).1 = some c := by
  intro cands
  induction cands with
  | nil => intro acc c0 h; exact ⟨c0, h⟩
  | cons d ds ih =>
    intro acc c0 h
    rw [List.foldl_cons]
    unfold selStep
    by_cases himp : comboScore dict d > acc.2
    · rw [if_pos himp]
      exact ih _ d rfl
    · rw [if_neg himp]
      exact ih _ c0 h

lemma selFold_some_of_lt (dict : List ((String × String) × ℚ)) :
    ∀ (cands : List (List Student)) (acc : Option (List Student) × ℚ),
      (∃ x ∈ cands, acc.2 < comboScore dict x) →
      ∃ c, (cands.foldl (selStep dict) acc).1 = some c := by
  intro cands
  induction cands with
  | nil => intro acc h; simp at h
  | cons d ds ih =>
    intro acc h
    rw [List.foldl_cons]
    by_cases himp : comboScore dict d > acc.2
    · have : (selStep dict acc d).1 = some d := by
        unfold selStep; rw [if_pos himp]
      exact selFold_acc_some dict ds _ d this
    · obtain ⟨x, hx, hlt⟩ := h
      rcases List.mem_cons.mp hx with rfl | hx'
      · exact absurd hlt himp
      · have hacc : selStep dict acc d = acc := by
          unfold selStep; rw [if_neg himp]
        rw [hacc]
        exact ih acc ⟨x, hx', hlt⟩

/-! ### Removal and multiset bookkeeping -/

lemma removeAll_coe (c l : List Student) :
    ((removeAll l c : List Student) : Multiset Student) =
      c.foldl (fun m a => m.erase a) (l : Multiset Student) := by
  induction c generalizing l with
  | nil => rfl
  | cons a c' ih =>
    simp only [removeAll, List.foldl_cons] at *
    rw [ih (l.erase a), Multiset.coe_erase]

lemma msFold_erase_eq_sub :
    ∀ (c : List Student) (s : Multiset Student), (c : Multiset Student) ≤ s →
      c.foldl (fun m a => m.erase a) s = s - (c : Multiset Student) := by
  intro c
  induction c with
  | nil => intro s _; simp
  | cons a c' ih =>
    intro s h
    rw [← Multiset.cons_coe] at h
    have ha : a ∈ s := Multiset.mem_of_le h (Multiset.mem_cons_self a _)
    have hc' : (c' : Multiset Student) ≤ s.erase a := by
      rw [← Multiset.cons_le_cons_iff a, Multiset.cons_erase ha]
      exact h
    rw [List.foldl_cons, ih (s.erase a) hc', ← Multiset.cons_coe, Multiset.sub_cons]

lemma removeAll_multiset (c l : List Student)
    (h : (c : Multiset Student) ≤ (l : Multiset Student)) :
    ((removeAll l c : List Student) : Multiset Student) =
      (l : Multiset Student) - (c : Multiset Student) := by
  rw [removeAll_coe, msFold_erase_eq_sub c _ h]

lemma sublist_coe_le (c l : List Student) (h : c.Sublist l) :
    (c : Multiset Student) ≤ (l : Multiset Student) :=
  Multiset.coe_le.mpr h.subperm

/-! ### Team-size facts -/

lemma range_map_if_sum (p b e : ℕ) :
    ((List.range p).map (fun i => if i < e then b + 1 else b)).sum = p * b + min e p := by
  induction p with
  | zero => simp
  | succ q ih =>
    rw [List.range_succ]
    simp only [List.map_append, List.sum_append, List.map_cons, List.sum_cons,
      List.map_nil, List.sum_nil, ih]
    rw [Nat.succ_mul]
    by_cases hq : q < e
    · simp only [hq, if_true]
      omega
    · simp only [hq, if_false]
      omega

lemma teamSizes_sum (n p : ℕ) (hp : p ≠ 0) : (teamSizes n p).sum = n := by
  unfold teamSizes
  rw [range_map_if_sum]
  have hlt : n % p < p := Nat.mod_lt n (Nat.pos_of_ne_zero hp)
  rw [min_eq_left hlt.le]
  exact Nat.div_add_mod n p

lemma teamSizes_length (n p : ℕ) : (teamSizes n p).length = p := by
  simp [teamSizes]

lemma teamSizes_two_le (n p : ℕ) (hp : p ≠ 0) (hn : 2 * p ≤ n) :
    ∀ s ∈ teamSizes n p, 2 ≤ s := by
  intro s hs
  have hdiv : 2 ≤ n / p :=
    (Nat.le_div_iff_mul_le (Nat.pos_of_ne_zero hp)).mpr hn
  simp only [teamSizes, List.mem_map, List.mem_range] at hs
  obtain ⟨i, -, rfl⟩ := hs
  by_cases hi : i < n % p <;> simp [hi] <;> omega

/-! ### Nonnegative dict values -/

lemma buildCompat_values (students : List Student) (kv : (String × String) × ℚ)
    (h : kv ∈ buildCompat students) :
    ∃ a ∈ students, ∃ b ∈ students, kv.2 = compute_compatibility a b := by
  simp only [buildCompat, List.mem_map] at h
  obtain ⟨q, hq, rfl⟩ := h
  obtain ⟨ha, hb⟩ := allPairs_mem students q.1 q.2 hq
  exact ⟨q.1, ha, q.2, hb, rfl⟩

lemma dictGet_bound (dict : List ((String × String) × ℚ)) (P : ℚ → Prop)
    (hP : ∀ kv ∈ dict, P kv.2) (k : String × String) (v : ℚ)
    (h : dictGet dict k = some v) : P v := by
  simp only [dictGet, Option.map_eq_some'] at h
  obtain ⟨e, he, rfl⟩ := h
  exact hP e (List.mem_reverse.mp (List.mem_of_find?_eq_some he))

lemma pyOrQ_nonneg (x : Option ℚ) (y : ℚ) (hy : 0 ≤ y)
    (hx : ∀ v, x = some v → 0 ≤ v) : 0 ≤ pyOrQ x y := by
  cases x with
  | none => exact hy
  | some v =>
    simp only [pyOrQ]
    by_cases hv : v = 0
    · rw [if_pos hv]; exact hy
    · rw [if_neg hv]; exact hx v rfl

lemma pairScore_nonneg (dict : List ((String × String) × ℚ))
    (hv : ∀ kv ∈ dict, 0 ≤ kv.2) (a b : Student) : 0 ≤ pairScore dict a b := by
  unfold pairScore
  refine pyOrQ_nonneg _ _ (pyOrQ_nonneg _ _ le_rfl ?_) ?_ <;>
    exact fun v h => dictGet_bound dict (fun x => 0 ≤ x) hv _ v h

lemma comboScore_nonneg (dict : List ((String × String) × ℚ))
    (hv : ∀ kv ∈ dict, 0 ≤ kv.2) (c : List Student) : 0 ≤ comboScore dict c := by
  unfold comboScore
  refine div_nonneg (List.sum_nonneg ?_) (by positivity)
  intro x hx
  obtain ⟨q, -, rfl⟩ := List.mem_map.mp hx
  exact pairScore_nonneg dict hv q.1 q.2

lemma buildCompat_nonneg (students : List Student)
    (hc : ∀ a ∈ students, ∀ b ∈ students, 0 ≤ compute_compatibility a b) :
    ∀ kv ∈ buildCompat students, 0 ≤ kv.2 := by
  intro kv hkv
  obtain ⟨a, ha, b, hb, he⟩ := buildCompat_values students kv hkv
  rw [he]
  exact hc a ha b hb

/-! ### Assembly loop: shape of a successful run -/

lemma assembleLoop_ok_spec (dict : List ((String × String) × ℚ)) :
    ∀ (sizes : List ℕ) (rem : List Student) (ts : List (ℚ × List Student)),
      assembleLoop dict sizes rem = .ok ts →
      ts.map (fun t => t.2.length) = sizes ∧
      teamsMultiset (ts.map Prod.snd) ≤ (rem : Multiset Student) := by
  intro sizes
  induction sizes with
  | nil =>
    intro rem ts h
    have : ts = [] := (Except.ok.inj h).symm
    subst this
    exact ⟨rfl, by simp [teamsMultiset]⟩
  | cons size rest ih =>
    intro rem ts h
    unfold assembleLoop at h
    cases hsel : selectBest dict (combinations size rem) with
    | mk b sc =>
      cases b with
      | none =>
        simp only [hsel] at h
        exact absurd h (by simp)
      | some combo =>
        simp only [hsel] at h
        cases hrec : assembleLoop dict rest (removeAll rem combo) with
        | error e => rw [hrec] at h; simp [Except.map] at h
        | ok ts' =>
          rw [hrec] at h
          simp only [Except.map, Except.ok.injEq] at h
          subst h
          have hmem : combo ∈ combinations size rem := by
            have h1 := congrArg Prod.fst hsel
            rcases selFold_some dict (combinations size rem) (none, -1) combo h1 with h' | h'
            · exact absurd h' (by simp)
            · exact h'
          have hsub := mem_combinations_sublist size rem combo hmem
          have hle := sublist_coe_le combo rem hsub
          obtain ⟨ihlen, ihms⟩ := ih (removeAll rem combo) ts' hrec
          constructor
          · simp only [List.map_cons, ihlen, mem_combinations_length size rem combo hmem]
          · simp only [List.map_cons, teamsMultiset]
            calc (combo : Multiset Student) + teamsMultiset (ts'.map Prod.snd)
                ≤ (combo : Multiset Student) + ((removeAll rem combo : List Student) : Multiset Student) :=
                  add_le_add_left ihms _
              _ = (combo : Multiset Student) + ((rem : Multiset Student) - (combo : Multiset Student)) := by
                  rw [removeAll_multiset combo rem hle]
              _ = (rem : Multiset Student) := add_tsub_cancel_of_le hle

/-! ### Assembly loop: totality under nonnegative scores -/

lemma assembleLoop_total (dict : List ((String × String) × ℚ))
    (hv : ∀ kv ∈ dict, 0 ≤ kv.2) :
    ∀ (sizes : List ℕ) (rem : List Student),
      (∀ s ∈ sizes, 2 ≤ s) → sizes.sum ≤ rem.length →
      ∃ ts, assembleLoop dict sizes rem = .ok ts := by
  intro sizes
  induction sizes with
  | nil => exact fun rem _ _ => ⟨[], rfl⟩
  | cons size rest ih =>
    intro rem hsz hsum
    rw [List.sum_cons] at hsum
    have hsize_le : size ≤ rem.length := by omega
    have htake := take_mem_combinations size rem hsize_le
    obtain ⟨c, hc⟩ := selFold_some_of_lt dict (combinations size rem) (none, -1)
      ⟨rem.take size, htake, lt_of_lt_of_le (by norm_num) (comboScore_nonneg dict hv _)⟩
    have hmem : c ∈ combinations size rem := by
      rcases selFold_some dict (combinations size rem) (none, -1) c hc with h' | h'
      · exact absurd h' (by simp)
      · exact h'
    have hsub := mem_combinations_sublist size rem c hmem
    have hle := sublist_coe_le c rem hsub
    have hlen_rem : (removeAll rem c).length = rem.length - size := by
      have hcard := congrArg Multiset.card (removeAll_multiset c rem hle)
      simp only [Multiset.coe_card, Multiset.card_sub hle] at hcard
      rw [hcard, mem_combinations_length size rem c hmem]
    obtain ⟨ts', hts'⟩ := ih (removeAll rem c)
      (fun s hs => hsz s (List.mem_cons_of_mem _ hs)) (by omega)
    cases hsel : selectBest dict (combinations size rem) with
    | mk b sc =>
      have hb : b = some c := by
        have h1 : (selectBest dict (combinations size rem)).1 = some c := hc
        rw [hsel] at h1
        exact h1
      subst hb
      refine ⟨(round2 sc, c) :: ts', ?_⟩
      unfold assembleLoop
      simp only [hsel, hts', Except.map]

/-! ### The error raised by `form_teams` is `insufficientRoster` iff n < 2p -/

lemma assembleLoop_ne_insufficient (dict : List ((String × String) × ℚ)) :
    ∀ (sizes : List ℕ) (rem : List Student),
      assembleLoop dict sizes rem ≠ .error .insufficientRoster := by
  intro sizes
  induction sizes with
  | nil => intro rem h; simp [assembleLoop] at h
  | cons size rest ih =>
    intro rem h
    unfold assembleLoop at h
    cases hsel : selectBest dict (combinations size rem) with
    | mk b sc =>
      cases b with
      | none => simp only [hsel] at h; simp at h
      | some combo =>
        simp only [hsel] at h
        cases hrec : assembleLoop dict rest (removeAll rem combo) with
        | error e =>
          rw [hrec] at h
          simp only [Except.map, Except.error.injEq] at h
          exact ih (removeAll rem combo) (by rw [hrec, h])
        | ok ts' => rw [hrec] at h; simp [Except.map] at h

lemma ranksAt_ne_insufficient (i : ℕ) :
    ∀ ms : List Student, ranksAt i ms ≠ .error .insufficientRoster := by
  intro ms
  induction ms with
  | nil => intro h; simp [ranksAt] at h
  | cons s ss ih =>
    intro h
    unfold ranksAt at h
    cases hg : s.project_ranks[i]? with
    | none => simp only [hg] at h; simp at h
    | some r =>
      simp only [hg] at h
      cases hrec : ranksAt i ss with
      | error e =>
        rw [hrec] at h
        simp only [Except.map, Except.error.injEq] at h
        exact ih (by rw [hrec, h])
      | ok rs => rw [hrec] at h; simp [Except.map] at h

lemma avgScoresOver_ne_insufficient (ms : List Student) :
    ∀ is : List ℕ, avgScoresOver ms is ≠ .error .insufficientRoster := by
  intro is
  induction is with
  | nil => intro h; simp [avgScoresOver] at h
  | cons i is ih =>
    intro h
    unfold avgScoresOver at h
    cases hg : ranksAt i ms with
    | error e =>
      simp only [hg] at h
      simp only [Except.error.injEq] at h
      exact ranksAt_ne_insufficient i ms (by rw [hg, h])
    | ok rs =>
      simp only [hg] at h
      by_cases hz : ms.length = 0
      · rw [if_pos hz] at h; simp at h
      · rw [if_neg hz] at h
        cases hrec : avgScoresOver ms is with
        | error e =>
          rw [hrec] at h
          simp only [Except.map, Except.error.injEq] at h
          exact ih (by rw [hrec, h])
        | ok vs => rw [hrec] at h; simp [Except.map] at h

lemma allocLoop_ne_insufficient (p : ℕ) :
    ∀ (ts : List (ℚ × List Student)) (assigned : List (Option ℕ)),
      allocLoop p assigned ts ≠ .error .insufficientRoster := by
  intro ts
  induction ts with
  | nil => intro assigned h; simp [allocLoop] at h
  | cons t ts ih =>
    intro assigned h
    unfold allocLoop at h
    cases hg : teamValues p t.2 with
    | error e =>
      simp only [hg] at h
      simp only [Except.error.injEq] at h
      exact avgScoresOver_ne_insufficient t.2 (List.range p)
        (by rw [show teamValues p t.2 = avgScoresOver t.2 (List.range p) from rfl] at hg
            rw [hg, h])
    | ok scores =>
      simp only [hg] at h
      cases hrec : allocLoop p ((pickBestAux assigned scores 0 (none, -1)).1 :: assigned) ts with
      | error e =>
        rw [hrec] at h
        simp only [Except.map, Except.error.injEq] at h
        exact ih _ (by rw [hrec, h])
      | ok rest => rw [hrec] at h; simp [Except.map] at h

/-- C5: `form_teams` raises `InsufficientRosterError` (the explicit
`ValueError` of line 117) exactly when n < 2p; the check precedes every other
step, so on this error no team is produced and no state is touched. -/
theorem form_teams_insufficient_iff (students : List Student) (p : ℕ) :
    form_teams students p = .error .insufficientRoster ↔
      students.length < 2 * p := by
  unfold form_teams
  by_cases h : students.length < p * 2
  · rw [if_pos h]
    exact ⟨fun _ => by omega, fun _ => rfl⟩
  · rw [if_neg h]
    by_cases hp : p = 0
    · rw [if_pos hp]
      constructor
      · intro hcon; simp at hcon
      · intro hlt; omega
    · rw [if_neg hp]
      cases hasm : assembleLoop (buildCompat students)
          (teamSizes students.length p) students with
      | error e =>
        constructor
        · intro hcon
          have he : e = FormError.insufficientRoster := by
            simpa using hcon
          exact absurd (he ▸ hasm) (assembleLoop_ne_insufficient _ _ _)
        · intro hlt; omega
      | ok ts =>
        constructor
        · intro hcon
          exact absurd hcon (allocLoop_ne_insufficient p ts [])
        · intro hlt; omega


/-! ### The inner project-selection scan -/

lemma pickAux_spec (assigned : List (Option ℕ)) :
    ∀ (vs : List ℚ) (i : ℕ) (acc : Option ℕ × ℚ),
      (pickBestAux assigned vs i acc = acc ∨
        ∃ k, ∃ hk : k < vs.length,
          (pickBestAux assigned vs i acc).1 = some (i + k + 1) ∧
          (pickBestAux assigned vs i acc).2 = vs[k] ∧
          some (i + k + 1) ∉ assigned) ∧
      acc.2 ≤ (pickBestAux assigned vs i acc).2 ∧
      ∀ k (hk : k < vs.length), some (i + k + 1) ∉ assigned →
        vs[k] ≤ (pickBestAux assigned vs i acc).2 := by
  intro vs
  induction vs with
  | nil =>
    intro i acc
    refine ⟨Or.inl rfl, le_rfl, ?_⟩
    intro k hk
    simp at hk
  | cons v vs ih =>
    intro i acc
    by_cases hcond : some (i + 1) ∉ assigned ∧ v > acc.2
    · have hstep : pickBestAux assigned (v :: vs) i acc =
          pickBestAux assigned vs (i + 1) (some (i + 1), v) := by
        conv_lhs => rw [pickBestAux]
        rw [if_pos hcond]
      obtain ⟨ihd, ihle, ihmax⟩ := ih (i + 1) (some (i + 1), v)
      refine ⟨?_, ?_, ?_⟩
      · rw [hstep]
        rcases ihd with heq | ⟨k, hk, h1, h2, h3⟩
        · right
          refine ⟨0, by simp, ?_, ?_, ?_⟩
          · rw [heq]
          · rw [heq]
            simp
          · exact hcond.1
        · right
          refine ⟨k + 1, by simpa using Nat.succ_lt_succ hk, ?_, ?_, ?_⟩
          · rw [h1]
            rw [show i + 1 + k + 1 = i + (k + 1) + 1 from by omega]
          · rw [h2]
            simp
          · rw [show i + (k + 1) + 1 = i + 1 + k + 1 from by omega]
            exact h3
      · rw [hstep]
        exact le_of_lt (lt_of_lt_of_le hcond.2 ihle)
      · intro k hk helig
        rw [hstep]
        cases k with
        | zero => simpa using ihle
        | succ k =>
          have hk' : k < vs.length := by simpa using hk
          have helig' : some (i + 1 + k + 1) ∉ assigned := by
            rw [show i + 1 + k + 1 = i + (k + 1) + 1 from by omega]
            exact helig
          have := ihmax k hk' helig'
          simpa using this
    · have hstep : pickBestAux assigned (v :: vs) i acc =
          pickBestAux assigned vs (i + 1) acc := by
        conv_lhs => rw [pickBestAux]
        rw [if_neg hcond]
      obtain ⟨ihd, ihle, ihmax⟩ := ih (i + 1) acc
      refine ⟨?_, by rw [hstep]; exact ihle, ?_⟩
      · rw [hstep]
        rcases ihd with heq | ⟨k, hk, h1, h2, h3⟩
        · exact Or.inl heq
        · right
          refine ⟨k + 1, by simpa using Nat.succ_lt_succ hk, ?_, ?_, ?_⟩
          · rw [h1]
            rw [show i + 1 + k + 1 = i + (k + 1) + 1 from by omega]
          · rw [h2]
            simp
          · rw [show i + (k + 1) + 1 = i + 1 + k + 1 from by omega]
            exact h3
      · intro k hk helig
        rw [hstep]
        cases k with
        | zero =>
          have hv : v ≤ acc.2 := by
            by_contra hlt
            exact hcond ⟨by simpa using helig, lt_of_not_le hlt⟩
          exact le_trans (by simpa using hv) ihle
        | succ k =>
          have hk' : k < vs.length := by simpa using hk
          have helig' : some (i + 1 + k + 1) ∉ assigned := by
            rw [show i + 1 + k + 1 = i + (k + 1) + 1 from by omega]
            exact helig
          have := ihmax k hk' helig'
          simpa using this


/-! ### Per-team preference values -/

lemma ranksAt_ok_spec (i : ℕ) :
    ∀ (ms : List Student) (rs : List ℤ), ranksAt i ms = .ok rs →
      rs = ms.map (fun s => s.project_ranks.getD i 0) := by
  intro ms
  induction ms with
  | nil =>
    intro rs h
    have : rs = [] := (Except.ok.inj h).symm
    simp [this]
  | cons s ss ih =>
    intro rs h
    unfold ranksAt at h
    cases hg : s.project_ranks[i]? with
    | none =>
      simp only [hg] at h
      exact absurd h (by simp)
    | some r =>
      simp only [hg] at h
      cases hrec : ranksAt i ss with
      | error e => rw [hrec] at h; simp [Except.map] at h
      | ok rs' =>
        rw [hrec] at h
        simp only [Except.map, Except.ok.injEq] at h
        subst h
        rw [List.map_cons, ← ih rs' hrec]
        have : s.project_ranks.getD i 0 = r := by
          rw [List.getD_eq_getElem?_getD, hg]
          rfl
        rw [this]

lemma avgScoresOver_ok_spec (ms : List Student) :
    ∀ (is : List ℕ) (vs : List ℚ), avgScoresOver ms is = .ok vs →
      vs.length = is.length ∧ (is ≠ [] → ms ≠ []) ∧
      ∀ k (hk : k < is.length), ∃ hk2 : k < vs.length,
        vs[k] = avgRank ms (is[k]) := by
  intro is
  induction is with
  | nil =>
    intro vs h
    have : vs = [] := (Except.ok.inj h).symm
    subst this
    exact ⟨rfl, fun hc => absurd rfl hc, fun k hk => by simp at hk⟩
  | cons i is ih =>
    intro vs h
    unfold avgScoresOver at h
    cases hg : ranksAt i ms with
    | error e =>
      simp only [hg] at h
      exact absurd h (by simp)
    | ok rs =>
      simp only [hg] at h
      by_cases hz : ms.length = 0
      · rw [if_pos hz] at h
        simp at h
      · rw [if_neg hz] at h
        cases hrec : avgScoresOver ms is with
        | error e => rw [hrec] at h; simp [Except.map] at h
        | ok vs' =>
          rw [hrec] at h
          simp only [Except.map, Except.ok.injEq] at h
          subst h
          obtain ⟨ihl, -, ihk⟩ := ih vs' hrec
          have hval : ((rs.map (fun r : ℤ => (r : ℚ))).sum / (ms.length : ℚ)) = avgRank ms i := by
            rw [ranksAt_ok_spec i ms rs hg]
            unfold avgRank
            congr 1
            rw [List.map_map]
            rfl
          refine ⟨by simp [ihl], fun _ => fun hc => hz (by simp [hc]), ?_⟩
          intro k hk
          cases k with
          | zero => exact ⟨by simp, by simpa using hval⟩
          | succ k =>
            have hk' : k < is.length := by simpa using hk
            obtain ⟨hk2, hv⟩ := ihk k hk'
            exact ⟨by simpa using Nat.succ_lt_succ hk2, by simpa using hv⟩

lemma teamValues_ok_spec (p : ℕ) (ms : List Student) (vs : List ℚ)
    (h : teamValues p ms = .ok vs) :
    vs.length = p ∧ (p ≠ 0 → ms ≠ []) ∧
    ∀ k, k < p → ∃ hk3 : k < vs.length, vs[k] = avgRank ms k := by
  obtain ⟨hl, hne, hk⟩ := avgScoresOver_ok_spec ms (List.range p) vs h
  refine ⟨by simpa using hl, fun hp => hne (by simpa using hp), ?_⟩
  intro k hkp
  have hk' : k < (List.range p).length := by simpa using hkp
  obtain ⟨hk2, hv⟩ := hk k hk'
  exact ⟨hk2, by simpa using hv⟩

lemma avgRank_nonneg (ms : List Student)
    (hr : ∀ s ∈ ms, ∀ r ∈ s.project_ranks, 0 ≤ r) (i : ℕ) : 0 ≤ avgRank ms i := by
  unfold avgRank
  refine div_nonneg (List.sum_nonneg ?_) (by positivity)
  intro x hx
  obtain ⟨s, hs, rfl⟩ := List.mem_map.mp hx
  have : (0 : ℤ) ≤ s.project_ranks.getD i 0 := by
    by_cases hi : i < s.project_ranks.length
    · rw [List.getD_eq_getElem _ _ hi]
      exact hr s hs _ (List.getElem_mem hi)
    · rw [List.getD_eq_default _ _ (by omega)]
  exact_mod_cast this

lemma ranksAt_total (i : ℕ) :
    ∀ ms : List Student, (∀ s ∈ ms, i < s.project_ranks.length) →
      ∃ rs, ranksAt i ms = .ok rs := by
  intro ms
  induction ms with
  | nil => exact fun _ => ⟨[], rfl⟩
  | cons s ss ih =>
    intro h
    obtain ⟨rs', hrs'⟩ := ih (fun x hx => h x (List.mem_cons_of_mem _ hx))
    refine ⟨s.project_ranks.get ⟨i, h s (List.mem_cons_self s ss)⟩ :: rs', ?_⟩
    unfold ranksAt
    rw [List.getElem?_eq_getElem (h s (List.mem_cons_self s ss))]
    simp only [hrs']
    rfl

lemma avgScoresOver_total (ms : List Student) (hms : ms ≠ []) :
    ∀ is : List ℕ, (∀ i ∈ is, ∀ s ∈ ms, i < s.project_ranks.length) →
      ∃ vs, avgScoresOver ms is = .ok vs := by
  intro is
  induction is with
  | nil => exact fun _ => ⟨[], rfl⟩
  | cons i is ih =>
    intro h
    obtain ⟨rs, hrs⟩ := ranksAt_total i ms (h i (List.mem_cons_self i is))
    obtain ⟨vs', hvs'⟩ := ih (fun j hj => h j (List.mem_cons_of_mem _ hj))
    refine ⟨((rs.map (fun r : ℤ => (r : ℚ))).sum / (ms.length : ℚ)) :: vs', ?_⟩
    unfold avgScoresOver
    simp only [hrs]
    rw [if_neg (by simpa using hms), hvs']
    rfl

lemma allocLoop_total (p : ℕ) :
    ∀ (ts : List (ℚ × List Student)) (assigned : List (Option ℕ)),
      (∀ t ∈ ts, t.2 ≠ [] ∧ ∀ s ∈ t.2, p ≤ s.project_ranks.length) →
      ∃ ts', allocLoop p assigned ts = .ok ts' := by
  intro ts
  induction ts with
  | nil => exact fun _ _ => ⟨[], rfl⟩
  | cons t ts ih =>
    intro assigned h
    obtain ⟨hne, hlen⟩ := h t (List.mem_cons_self t ts)
    obtain ⟨vs, hvs⟩ := avgScoresOver_total t.2 hne (List.range p)
      (fun i hi s hs => lt_of_lt_of_le (List.mem_range.mp hi) (hlen s hs))
    obtain ⟨ts', hts'⟩ := ih ((pickBestAux assigned vs 0 (none, -1)).1 :: assigned)
      (fun x hx => h x (List.mem_cons_of_mem _ hx))
    refine ⟨⟨t.1, t.2, pyStr (pickBestAux assigned vs 0 (none, -1)).1⟩ :: ts', ?_⟩
    unfold allocLoop
    rw [show teamValues p t.2 = avgScoresOver t.2 (List.range p) from rfl]
    simp only [hvs]
    rw [hts']
    rfl


/-! ### Injectivity of the decimal rendering -/

lemma natDigitsAux_eq (fuel : ℕ) :
    ∀ n : ℕ, n ≤ fuel → natDigitsAux fuel n = (Nat.digits 10 n).map Nat.digitChar := by
  induction fuel with
  | zero =>
    intro n hn
    have : n = 0 := by omega
    subst this
    simp [natDigitsAux]
  | succ f ih =>
    intro n hn
    by_cases hz : n = 0
    · subst hz
      simp [natDigitsAux]
    · unfold natDigitsAux
      rw [if_neg hz]
      rw [Nat.digits_def' (by norm_num : (1 : ℕ) < 10) (Nat.pos_of_ne_zero hz)]
      rw [List.map_cons]
      congr 1
      exact ih (n / 10) (by
        have := Nat.div_lt_self (Nat.pos_of_ne_zero hz) (by norm_num : 1 < 10)
        omega)

lemma digitChar_inj_lt :
    ∀ a, a < 10 → ∀ b, b < 10 → Nat.digitChar a = Nat.digitChar b → a = b := by
  decide

lemma map_digitChar_inj :
    ∀ (l1 l2 : List ℕ), (∀ x ∈ l1, x < 10) → (∀ x ∈ l2, x < 10) →
      l1.map Nat.digitChar = l2.map Nat.digitChar → l1 = l2 := by
  intro l1
  induction l1 with
  | nil =>
    intro l2 _ _ h
    cases l2 with
    | nil => rfl
    | cons b bs => simp at h
  | cons a as ih =>
    intro l2 h1 h2 h
    cases l2 with
    | nil => simp at h
    | cons b bs =>
      simp only [List.map_cons, List.cons.injEq] at h
      have hab : a = b :=
        digitChar_inj_lt a (h1 a (List.mem_cons_self a as)) b
          (h2 b (List.mem_cons_self b bs)) h.1
      rw [hab, ih bs (fun x hx => h1 x (List.mem_cons_of_mem _ hx))
        (fun x hx => h2 x (List.mem_cons_of_mem _ hx)) h.2]

lemma asString_inj (l1 l2 : List Char) (h : List.asString l1 = List.asString l2) :
    l1 = l2 := by
  have := congrArg String.data h
  simpa [List.asString] using this

lemma natStr_digits (n : ℕ) (hn : n ≠ 0) :
    natStr n = List.asString ((Nat.digits 10 n).map Nat.digitChar).reverse := by
  unfold natStr
  rw [if_neg hn, natDigitsAux_eq n n le_rfl]

lemma natStr_ne_zero_str (n : ℕ) (hn : n ≠ 0) : natStr n ≠ "0" := by
  intro h
  rw [natStr_digits n hn] at h
  have hd := asString_inj _ _ (h.trans (by rfl : ("0" : String) = List.asString ['0']))
  have hrev : (Nat.digits 10 n).map Nat.digitChar = ['0'] := by
    have := congrArg List.reverse hd
    simpa using this
  have hne : Nat.digits 10 n ≠ [] := Nat.digits_ne_nil_iff_ne_zero.mpr hn
  cases hdig : Nat.digits 10 n with
  | nil => exact hne hdig
  | cons d ds =>
    rw [hdig] at hrev
    simp only [List.map_cons, List.cons.injEq] at hrev
    have hds : ds = [] := by
      rcases hrev with ⟨-, h2⟩
      exact List.map_eq_nil_iff.mp h2
    have hd0 : d = 0 := by
      have hlt : d < 10 := Nat.digits_lt_base (by norm_num)
        (by rw [hdig]; exact List.mem_cons_self d ds)
      exact digitChar_inj_lt d hlt 0 (by norm_num) (by simpa using hrev.1)
    have hzero : Nat.digits 10 n = [0] := by rw [hdig, hds, hd0]
    have hofd := Nat.ofDigits_digits 10 n
    rw [hzero] at hofd
    simp [Nat.ofDigits] at hofd
    exact hn hofd.symm

lemma natStr_injective : Function.Injective natStr := by
  intro m n h
  by_cases hm : m = 0 <;> by_cases hn : n = 0
  · omega
  · subst hm
    have h0 : natStr 0 = "0" := rfl
    rw [h0] at h
    exact absurd h.symm (natStr_ne_zero_str n hn)
  · subst hn
    have h0 : natStr 0 = "0" := rfl
    rw [h0] at h
    exact absurd h (natStr_ne_zero_str m hm)
  · rw [natStr_digits m hm, natStr_digits n hn] at h
    have hd := asString_inj _ _ h
    have hrev := congrArg List.reverse hd
    simp only [List.reverse_reverse] at hrev
    have hdig := map_digitChar_inj _ _
      (fun x hx => Nat.digits_lt_base (by norm_num) hx)
      (fun x hx => Nat.digits_lt_base (by norm_num) hx) hrev
    exact Nat.digits.injective 10 hdig


/-! ### The allocation loop: distinct, in-range, greedily maximal choices -/

lemma pigeonhole_unassigned (p : ℕ) (assigned : List (Option ℕ))
    (h : assigned.length < p) :
    ∃ j, 1 ≤ j ∧ j ≤ p ∧ some j ∉ assigned := by
  by_contra hc
  push_neg at hc
  have hsub : Finset.Icc 1 p ⊆ (assigned.filterMap id).toFinset := by
    intro j hj
    rw [List.mem_toFinset, List.mem_filterMap]
    exact ⟨some j, hc j (Finset.mem_Icc.mp hj).1 (Finset.mem_Icc.mp hj).2, rfl⟩
  have hcard := Finset.card_le_card hsub
  have h1 : (Finset.Icc 1 p).card = p := by simp
  have h2 : (assigned.filterMap id).toFinset.card ≤ assigned.length :=
    le_trans (List.toFinset_card_le _) (List.length_filterMap_le id assigned)
  omega

lemma allocLoop_ok_members (p : ℕ) :
    ∀ (ts : List (ℚ × List Student)) (assigned : List (Option ℕ)) (ts' : List TeamR),
      allocLoop p assigned ts = .ok ts' →
      ts'.map TeamR.members = ts.map Prod.snd ∧
      ts'.map TeamR.compatibility = ts.map Prod.fst := by
  intro ts
  induction ts with
  | nil =>
    intro assigned ts' h
    have : ts' = [] := (Except.ok.inj h).symm
    subst this
    exact ⟨rfl, rfl⟩
  | cons t ts ih =>
    intro assigned ts' h
    unfold allocLoop at h
    cases hg : teamValues p t.2 with
    | error e =>
      simp only [hg] at h
      exact absurd h (by simp)
    | ok scores =>
      simp only [hg] at h
      cases hrec : allocLoop p ((pickBestAux assigned scores 0 (none, -1)).1 :: assigned) ts with
      | error e => rw [hrec] at h; simp [Except.map] at h
      | ok rest =>
        rw [hrec] at h
        simp only [Except.map, Except.ok.injEq] at h
        subst h
        obtain ⟨h1, h2⟩ := ih _ rest hrec
        exact ⟨by simp [h1], by simp [h2]⟩

lemma allocLoop_ok_spec (p : ℕ) :
    ∀ (ts : List (ℚ × List Student)) (assigned : List (Option ℕ)) (ts' : List TeamR),
      allocLoop p assigned ts = .ok ts' →
      (∀ t ∈ ts, ∀ s ∈ t.2, ∀ r ∈ s.project_ranks, 0 ≤ r) →
      ts.length + assigned.length ≤ p →
      ∃ js : List ℕ,
        js.length = ts.length ∧
        ts'.map TeamR.project = js.map natStr ∧
        ∀ k (hkj : k < js.length) (hkt : k < ts.length),
          (1 ≤ js[k] ∧ js[k] ≤ p) ∧
          some (js[k]) ∉ assigned ∧
          js[k] ∉ js.take k ∧
          ∀ j, 1 ≤ j → j ≤ p → some j ∉ assigned → j ∉ js.take k →
            avgRank ((ts[k]).2) (j - 1) ≤ avgRank ((ts[k]).2) (js[k] - 1) := by
  intro ts
  induction ts with
  | nil =>
    intro assigned ts' h _ _
    have : ts' = [] := (Except.ok.inj h).symm
    subst this
    exact ⟨[], rfl, rfl, fun k hkj => by simp at hkj⟩
  | cons t ts ih =>
    intro assigned ts' h hr hcnt
    unfold allocLoop at h
    cases hg : teamValues p t.2 with
    | error e =>
      simp only [hg] at h
      exact absurd h (by simp)
    | ok scores =>
      simp only [hg] at h
      cases hrec : allocLoop p ((pickBestAux assigned scores 0 (none, -1)).1 :: assigned) ts with
      | error e => rw [hrec] at h; simp [Except.map] at h
      | ok rest =>
        rw [hrec] at h
        simp only [Except.map, Except.ok.injEq] at h
        subst h
        obtain ⟨hslen, -, hsval⟩ := teamValues_ok_spec p t.2 scores hg
        have hrt : ∀ s ∈ t.2, ∀ r ∈ s.project_ranks, 0 ≤ r :=
          fun s hs => hr t (List.mem_cons_self t ts) s hs
        obtain ⟨j0, hj01, hj0p, hj0elig⟩ := pigeonhole_unassigned p assigned
          (by simp only [List.length_cons] at hcnt; omega)
        have hk0lt : j0 - 1 < p := by omega
        obtain ⟨hk2, hvk⟩ := hsval (j0 - 1) hk0lt
        have hval0 : (0 : ℚ) ≤ scores[j0 - 1] := by
          rw [hvk]
          exact avgRank_nonneg t.2 hrt _
        obtain ⟨hdisj, hmono, hmax⟩ := pickAux_spec assigned scores 0 (none, -1)
        have helig0 : some (0 + (j0 - 1) + 1) ∉ assigned := by
          rw [show 0 + (j0 - 1) + 1 = j0 from by omega]
          exact hj0elig
        have hresult_pos : (0 : ℚ) ≤ (pickBestAux assigned scores 0 (none, -1)).2 :=
          le_trans hval0 (hmax (j0 - 1) hk2 helig0)
        rcases hdisj with heq | ⟨k0, hk0', hb1, hb2, hb3⟩
        · rw [heq] at hresult_pos
          norm_num at hresult_pos
        · have hbs : (pickBestAux assigned scores 0 (none, -1)).1 = some (k0 + 1) := by
            rw [hb1]
            congr 1
            omega
          have hk0p : k0 + 1 ≤ p := by
            have := hk0'
            omega
          obtain ⟨js', hjl, hjp, hjprop⟩ := ih
            ((pickBestAux assigned scores 0 (none, -1)).1 :: assigned) rest hrec
            (fun x hx => hr x (List.mem_cons_of_mem _ hx))
            (by simp only [List.length_cons] at hcnt ⊢; omega)
          refine ⟨(k0 + 1) :: js', by simp [hjl], ?_, ?_⟩
          · simp only [List.map_cons, hjp, hbs, pyStr]
          · intro k hkj hkt
            cases k with
            | zero =>
              refine ⟨⟨by simp, by simpa using hk0p⟩, ?_, by simp, ?_⟩
              · have := hb3
                rw [show 0 + k0 + 1 = k0 + 1 from by omega] at this
                simpa using this
              · intro j hj1 hjp2 hjelig _
                have hjlt : j - 1 < p := by omega
                obtain ⟨hjk2, hjv⟩ := hsval (j - 1) hjlt
                have heligj : some (0 + (j - 1) + 1) ∉ assigned := by
                  rw [show 0 + (j - 1) + 1 = j from by omega]
                  exact hjelig
                have hle := hmax (j - 1) hjk2 heligj
                rw [hb2] at hle
                obtain ⟨hjk0, hjv0⟩ := hsval k0 (by omega)
                simp only [List.getElem_cons_zero]
                calc avgRank t.2 (j - 1) = scores[j - 1] := hjv.symm
                  _ ≤ scores[k0] := hle
                  _ = avgRank t.2 k0 := hjv0
                  _ = avgRank t.2 (k0 + 1 - 1) := by norm_num
            | succ k =>
              have hkj' : k < js'.length := by simpa using hkj
              have hkt' : k < ts.length := by simpa using hkt
              obtain ⟨hrange, helig, htake, hargmax⟩ := hjprop k hkj' hkt'
              have hneq : js'[k] ≠ k0 + 1 := by
                intro hcon
                apply helig
                rw [hcon, ← hbs]
                exact List.mem_cons_self _ _
              refine ⟨by simpa using hrange, ?_, ?_, ?_⟩
              · simp only [List.getElem_cons_succ]
                intro hcon
                exact helig (List.mem_cons_of_mem _ hcon)
              · simp only [List.getElem_cons_succ, List.take_succ_cons, List.mem_cons]
                push_neg
                exact ⟨hneq, htake⟩
              · intro j hj1 hjp2 hjelig hjtake
                simp only [List.take_succ_cons, List.mem_cons] at hjtake
                push_neg at hjtake
                have hjelig' : some j ∉ (pickBestAux assigned scores 0 (none, -1)).1 :: assigned := by
                  rw [hbs]
                  intro hcon
                  rcases List.mem_cons.mp hcon with hcon | hcon
                  · exact hjtake.1 (Option.some.inj hcon)
                  · exact hjelig hcon
                have := hargmax j hj1 hjp2 hjelig' hjtake.2
                simpa using this


instance {ε α : Type} [DecidableEq ε] [DecidableEq α] : DecidableEq (Except ε α) :=
  fun a b =>
  match a, b with
  | .ok x, .ok y =>
    if h : x = y then isTrue (by rw [h]) else isFalse (fun hc => h (Except.ok.inj hc))
  | .ok _, .error _ => isFalse (fun hc => Except.noConfusion hc)
  | .error _, .ok _ => isFalse (fun hc => Except.noConfusion hc)
  | .error e, .error f =>
    if h : e = f then isTrue (by rw [h]) else isFalse (fun hc => h (Except.error.inj hc))

/-! ### C1: distinct projects in 1..p -/

lemma nodup_of_not_mem_take (l : List ℕ)
    (h : ∀ k (hk : k < l.length), l[k] ∉ l.take k) : l.Nodup := by
  rw [List.Nodup, List.pairwise_iff_getElem]
  intro i j hi hj hij
  intro hcon
  apply h j hj
  have hjt : i < (l.take j).length := by
    simp only [List.length_take]
    omega
  have : (l.take j)[i] = l[i] := List.getElem_take ..
  rw [← hcon, ← this]
  exact List.getElem_mem hjt

lemma teamsMultiset_mem (L : List (List Student)) (l : List Student) (x : Student)
    (hl : l ∈ L) (hx : x ∈ l) : x ∈ teamsMultiset L := by
  induction L with
  | nil => simp at hl
  | cons a as ih =>
    simp only [teamsMultiset, Multiset.mem_add]
    rcases List.mem_cons.mp hl with rfl | hl'
    · exact Or.inl (Multiset.mem_coe.mpr hx)
    · exact Or.inr (ih hl')

lemma teamsMultiset_card (L : List (List Student)) :
    Multiset.card (teamsMultiset L) = (L.map List.length).sum := by
  induction L with
  | nil => rfl
  | cons a as ih =>
    simp only [teamsMultiset, List.map_cons, List.sum_cons, Multiset.card_add,
      Multiset.coe_card, ih]

/-- C1 (amended): in every successful `form_teams` run on a roster whose
project ranks are all nonnegative (as on the survey's 0–5 scale), no two
teams receive the same project identifier and every team's identifier is the
decimal string of some project number in 1..p.  (With negative ranks a team
can instead receive the placeholder identifier "None".) -/
theorem form_teams_unique_projects (students : List Student) (p : ℕ)
    (ts : List TeamR)
    (hranks : ∀ s ∈ students, ∀ r ∈ s.project_ranks, 0 ≤ r)
    (h : form_teams students p = .ok ts) :
    (ts.map TeamR.project).Nodup ∧
    ∀ t ∈ ts, ∃ k, 1 ≤ k ∧ k ≤ p ∧ t.project = natStr k := by
  unfold form_teams at h
  by_cases h1 : students.length < p * 2
  · rw [if_pos h1] at h
    exact absurd h (by simp)
  · rw [if_neg h1] at h
    by_cases hp : p = 0
    · rw [if_pos hp] at h
      exact absurd h (by simp)
    · rw [if_neg hp] at h
      cases hasm : assembleLoop (buildCompat students)
          (teamSizes students.length p) students with
      | error e =>
        simp only [hasm] at h
        exact absurd h (by simp)
      | ok ts0 =>
        simp only [hasm] at h
        obtain ⟨hlen0, hle0⟩ := assembleLoop_ok_spec (buildCompat students) _ _ _ hasm
        have hts0len : ts0.length = p := by
          have := congrArg List.length hlen0
          simpa [teamSizes_length] using this
        have hmem0 : ∀ t ∈ ts0, ∀ s ∈ t.2, s ∈ students := by
          intro t ht s hs
          have h1 : s ∈ teamsMultiset (ts0.map Prod.snd) :=
            teamsMultiset_mem _ t.2 s (List.mem_map_of_mem _ ht) hs
          exact Multiset.mem_coe.mp (Multiset.mem_of_le hle0 h1)
        obtain ⟨js, hjl, hjp, hjprop⟩ := allocLoop_ok_spec p ts0 [] ts h
          (fun t ht s hs => hranks s (hmem0 t ht s hs))
          (by simp [hts0len])
        have hjnodup : js.Nodup := by
          apply nodup_of_not_mem_take
          intro k hk
          exact (hjprop k hk (by omega)).2.2.1
        constructor
        · rw [hjp]
          exact hjnodup.map natStr_injective
        · intro t ht
          obtain ⟨k, hkt, rfl⟩ := List.mem_iff_getElem.mp ht
          have hkj : k < js.length := by
            have := congrArg List.length hjp
            simp only [List.length_map] at this
            omega
          obtain ⟨⟨hk1, hk2⟩, -, -, -⟩ := hjprop k hkj (by omega)
          refine ⟨js[k], hk1, hk2, ?_⟩
          have := congrArg (fun l => l.getD k "") hjp
          simp only [List.getD_eq_getElem?_getD, List.getElem?_map,
            List.getElem?_eq_getElem hkt, List.getElem?_eq_getElem hkj] at this
          simpa using this

/-- A student with the given name and project ranks and neutral remaining
attributes. -/
def plainStudent (nm : String) (ranks : List ℤ) : Student :=
  { name := nm, email := "", project_ranks := ranks, teammate_ranks := [],
    skills := ⟨0, 0, 0, 0⟩, availability := 0, workstyle := "", meeting_pref := "" }

def gina : Student := plainStudent "G" [-2, -2, -2, -2, -2]

def hana : Student := plainStudent "H" [-2, -2, -2, -2, -2]

/-- C1 (counterexample): with negative project ranks every per-project value
stays below the -1 sentinel, so the single team is assigned the project
identifier "None", which is not the identifier of any project in 1..p. -/
theorem form_teams_none_project :
    form_teams [gina, hana] 1 =
      .ok [⟨70, [gina, hana], "None"⟩] ∧
    ∀ k : ℕ, 1 ≤ k → k ≤ 1 → ("None" : String) ≠ natStr k := by
  constructor
  · with_unfolding_all decide
  · intro k h1 h2
    have hk : k = 1 := by omega
    subst hk
    with_unfolding_all decide

def emma : Student := plainStudent "E" [1, 1, 1, 1, 1]

def finn : Student := plainStudent "F" [1, 1, 1, 1, 1]

theorem form_teams_unique_projects_witness :
    (([⟨70, [emma, finn], "1"⟩] : List TeamR).map TeamR.project).Nodup ∧
    ∀ t ∈ ([⟨70, [emma, finn], "1"⟩] : List TeamR),
      ∃ k, 1 ≤ k ∧ k ≤ 1 ∧ t.project = natStr k :=
  form_teams_unique_projects [emma, finn] 1 [⟨70, [emma, finn], "1"⟩]
    (by intro s hs r hr; fin_cases hs <;> fin_cases hr <;> norm_num)
    (by with_unfolding_all decide)


/-! ### C6: the allocator greedily maximizes the mean raw rank -/

/-- C6 (amended): on a successful allocation over teams with nonnegative
project ranks, teams are processed in assembly order (members and order are
preserved), and each team's project is the decimal string of a project number
j in 1..p that is not claimed by any earlier team and whose per-project
preference value — the mean over members of the raw rank
`projectRanks[j-1]`, higher rank preferred — is maximal among the projects
not yet claimed (earliest index winning ties). -/
theorem allocate_greedy (ts : List (ℚ × List Student)) (p : ℕ) (ts' : List TeamR)
    (hranks : ∀ t ∈ ts, ∀ s ∈ t.2, ∀ r ∈ s.project_ranks, 0 ≤ r)
    (hcount : ts.length ≤ p)
    (h : allocate ts p = .ok ts') :
    ts'.map TeamR.members = ts.map Prod.snd ∧
    ∃ js : List ℕ,
      ts'.map TeamR.project = js.map natStr ∧
      js.length = ts.length ∧
      ∀ k (hkj : k < js.length) (hkt : k < ts.length),
        (1 ≤ js[k] ∧ js[k] ≤ p) ∧
        js[k] ∉ js.take k ∧
        ∀ j, 1 ≤ j → j ≤ p → j ∉ js.take k →
          avgRank ((ts[k]).2) (j - 1) ≤ avgRank ((ts[k]).2) (js[k] - 1) := by
  unfold allocate at h
  obtain ⟨hmem, -⟩ := allocLoop_ok_members p ts [] ts' h
  obtain ⟨js, hjl, hjp, hjprop⟩ := allocLoop_ok_spec p ts [] ts' h hranks
    (by simpa using hcount)
  refine ⟨hmem, js, hjp, hjl, ?_⟩
  intro k hkj hkt
  obtain ⟨hrange, -, htake, hargmax⟩ := hjprop k hkj hkt
  exact ⟨hrange, htake, fun j h1 h2 h3 =>
    hargmax j h1 h2 (by simp) h3⟩

def carl : Student := plainStudent "C" [5, 1]

/-- Modelled from the spec: the allocator that §4.3 describes, whose
per-project preference value is the mean over members of
`(maxRank + 1 − projectRanks[i])` (maxRank = 5, the top of the survey's 1–5
scale), processing teams in order and claiming the highest-value unclaimed
project.  It differs from the code, which averages the raw ranks. -/
def specPrefValues (p : ℕ) (members : List Student) : List ℚ :=
  (List.range p).map (fun i =>
    ((members.map (fun s => ((5 + 1 - s.project_ranks.getD i 0 : ℤ) : ℚ))).sum) /
      (members.length : ℚ))

/-- Modelled from the spec: the greedy claiming loop of §4.3 over the
spec's transformed preference values. -/
def allocSpecLoop (p : ℕ) : List (Option ℕ) → List (ℚ × List Student) → List TeamR
  | _, [] => []
  | assigned, t :: ts =>
    let best := (pickBestAux assigned (specPrefValues p t.2) 0 (none, -1)).1
    ⟨t.1, t.2, pyStr best⟩ :: allocSpecLoop p (best :: assigned) ts

/-- C6 (counterexample): for a single team whose one member ranks project 1
with 5 and project 2 with 1, the code assigns project "1" (it maximizes the
mean raw rank), while the spec's `(maxRank + 1 − rank)` formula would assign
project "2" (rank 1 would be the top preference value). -/
theorem allocator_formula_mismatch :
    allocate [(0, [carl])] 2 = .ok [⟨0, [carl], "1"⟩] ∧
    allocSpecLoop 2 [] [(0, [carl])] = [⟨0, [carl], "2"⟩] ∧
    ("1" : String) ≠ "2" := by
  refine ⟨?_, ?_, ?_⟩ <;> with_unfolding_all decide

def dora : Student := plainStudent "D" [3]

theorem allocate_greedy_witness :
    (([⟨0, [dora], "1"⟩] : List TeamR).map TeamR.members =
      ([((0 : ℚ), [dora])] : List (ℚ × List Student)).map Prod.snd) ∧
    ∃ js : List ℕ,
      ([⟨0, [dora], "1"⟩] : List TeamR).map TeamR.project = js.map natStr ∧
      js.length = ([((0 : ℚ), [dora])] : List (ℚ × List Student)).length ∧
      ∀ k (hkj : k < js.length)
        (hkt : k < ([((0 : ℚ), [dora])] : List (ℚ × List Student)).length),
        (1 ≤ js[k] ∧ js[k] ≤ 1) ∧
        js[k] ∉ js.take k ∧
        ∀ j, 1 ≤ j → j ≤ 1 → j ∉ js.take k →
          avgRank ((([((0 : ℚ), [dora])] : List (ℚ × List Student))[k]).2) (j - 1) ≤
            avgRank ((([((0 : ℚ), [dora])] : List (ℚ × List Student))[k]).2) (js[k] - 1) :=
  allocate_greedy [((0 : ℚ), [dora])] 1 [⟨0, [dora], "1"⟩]
    (by intro t ht s hs r hr; fin_cases ht; fin_cases hs; fin_cases hr; norm_num)
    (by norm_num)
    (by with_unfolding_all decide)


/-! ### C4/C10: totality, sizes and partition of a full run -/

lemma form_teams_ok_full (students : List Student) (p : ℕ)
    (hp : 1 ≤ p) (hn : 2 * p ≤ students.length)
    (hlen : ∀ s ∈ students, p ≤ s.project_ranks.length)
    (hcompat : ∀ a ∈ students, ∀ b ∈ students, 0 ≤ compute_compatibility a b) :
    ∃ ts, form_teams students p = .ok ts ∧ ts.length = p ∧
      teamsMultiset (ts.map TeamR.members) = (students : Multiset Student) ∧
      ts.map (fun t => t.members.length) = teamSizes students.length p := by
  have hp0 : p ≠ 0 := by omega
  obtain ⟨ts0, hts0⟩ := assembleLoop_total (buildCompat students)
    (buildCompat_nonneg students hcompat) (teamSizes students.length p) students
    (teamSizes_two_le students.length p hp0 hn)
    (by rw [teamSizes_sum students.length p hp0])
  obtain ⟨hlen0, hle0⟩ := assembleLoop_ok_spec (buildCompat students) _ _ _ hts0
  have hts0len : ts0.length = p := by
    have := congrArg List.length hlen0
    simpa [teamSizes_length] using this
  have hcard : Multiset.card (teamsMultiset (ts0.map Prod.snd)) = students.length := by
    rw [teamsMultiset_card]
    have : (ts0.map Prod.snd).map List.length = ts0.map (fun t => t.2.length) := by
      rw [List.map_map]
      rfl
    rw [this, hlen0, teamSizes_sum students.length p hp0]
  have heq : teamsMultiset (ts0.map Prod.snd) = (students : Multiset Student) :=
    Multiset.eq_of_le_of_card_le hle0 (by rw [hcard, Multiset.coe_card])
  have hsizes2 : ∀ t ∈ ts0, 2 ≤ t.2.length := by
    intro t ht
    have : t.2.length ∈ ts0.map (fun t => t.2.length) := List.mem_map_of_mem _ ht
    rw [hlen0] at this
    exact teamSizes_two_le students.length p hp0 hn _ this
  have hmem0 : ∀ t ∈ ts0, ∀ s ∈ t.2, s ∈ students := by
    intro t ht s hs
    have h1 : s ∈ teamsMultiset (ts0.map Prod.snd) :=
      teamsMultiset_mem _ t.2 s (List.mem_map_of_mem _ ht) hs
    rw [heq] at h1
    exact Multiset.mem_coe.mp h1
  obtain ⟨ts, hts⟩ := allocLoop_total p ts0 []
    (fun t ht => ⟨by
        intro hc
        have := hsizes2 t ht
        rw [hc] at this
        simp at this,
      fun s hs => hlen s (hmem0 t ht s hs)⟩)
  obtain ⟨hmems, -⟩ := allocLoop_ok_members p ts0 [] ts hts
  have hlenmap : ts.map (fun t => t.members.length) = teamSizes students.length p := by
    have h1 : (ts.map TeamR.members).map List.length =
        (ts0.map Prod.snd).map List.length := by rw [hmems]
    rw [List.map_map, List.map_map] at h1
    have h2 : ts0.map (List.length ∘ Prod.snd) = ts0.map (fun t => t.2.length) := rfl
    rw [h2, hlen0] at h1
    exact h1
  refine ⟨ts, ?_, ?_, ?_, hlenmap⟩
  · unfold form_teams
    rw [if_neg (by omega), if_neg hp0]
    simp only [hts0]
    exact hts
  · have := congrArg List.length hmems
    simp only [List.length_map] at this
    rw [this, hts0len]
  · have : teamsMultiset (ts.map TeamR.members) = teamsMultiset (ts0.map Prod.snd) := by
      rw [hmems]
    rw [this, heq]

/-- C4 (amended): for every team count p ≥ 1 and roster of size n ≥ 2p whose
students carry one rank per project and whose pairwise compatibility scores
are all nonnegative (as with in-scale survey data), `form_teams` returns
exactly p teams whose members partition the roster, the first n mod p of size
n/p + 1 and the rest of size n/p (front-loaded).  (With out-of-scale data a
compatibility score can drop below the -1 search sentinel and `form_teams`
faults instead.) -/
theorem form_teams_partition (students : List Student) (p : ℕ)
    (hp : 1 ≤ p) (hn : 2 * p ≤ students.length)
    (hlen : ∀ s ∈ students, p ≤ s.project_ranks.length)
    (hcompat : ∀ a ∈ students, ∀ b ∈ students, 0 ≤ compute_compatibility a b) :
    ∃ ts, form_teams students p = .ok ts ∧ ts.length = p ∧
      teamsMultiset (ts.map TeamR.members) = (students : Multiset Student) ∧
      ∀ i (hi : i < ts.length),
        (ts[i]).members.length =
          if i < students.length % p then students.length / p + 1
          else students.length / p := by
  obtain ⟨ts, h1, h2, h3, h4⟩ := form_teams_ok_full students p hp hn hlen hcompat
  refine ⟨ts, h1, h2, h3, ?_⟩
  intro i hi
  have := congrArg (fun l => l.getD i 0) h4
  simp only [List.getD_eq_getElem?_getD, List.getElem?_map,
    List.getElem?_eq_getElem hi] at this
  have hip : i < p := by omega
  have hir : i < (List.range p).length := by simpa using hip
  simp only [teamSizes, List.getElem?_map, List.getElem?_eq_getElem hir,
    List.getElem_range] at this
  simpa using this

def xena : Student := plainStudent "X" [1000, 0, 0, 0, 0]

def yuri : Student := plainStudent "Y" [0, 0, 0, 0, 0]

/-- C4 (counterexample): an out-of-scale rank of 1000 drives the single
pairwise compatibility score far below the -1 search sentinel, so with
n = 2 ≥ 2p the strict-improvement scan never selects a combination and
`form_teams` faults (Python iterates over `best_combo = None`) instead of
producing the p teams the claim promises. -/
theorem form_teams_neg_crash :
    form_teams [xena, yuri] 1 = .error .selectionFailed ∧
      ∀ ts : List TeamR, form_teams [xena, yuri] 1 ≠ .ok ts := by
  have h : form_teams [xena, yuri] 1 = .error .selectionFailed := by
    with_unfolding_all decide
  exact ⟨h, fun ts hc => by rw [h] at hc; exact Except.noConfusion hc⟩

theorem form_teams_partition_witness :
    ∃ ts, form_teams [emma, finn] 1 = .ok ts ∧ ts.length = 1 ∧
      teamsMultiset (ts.map TeamR.members) =
        (([emma, finn] : List Student) : Multiset Student) ∧
      ∀ i (hi : i < ts.length),
        (ts[i]).members.length =
          if i < ([emma, finn] : List Student).length % 1 then
            ([emma, finn] : List Student).length / 1 + 1
          else ([emma, finn] : List Student).length / 1 :=
  form_teams_partition [emma, finn] 1 (by norm_num) (by norm_num)
    (by intro s hs; fin_cases hs <;> norm_num [emma, finn, plainStudent])
    (by intro a ha b hb; fin_cases ha <;> fin_cases hb <;> with_unfolding_all decide)

/-- C10 (amended): under p ≥ 1 and n ≥ 2p every target team size is at least
2, hence every enumerated combination contains at least one pair and the
mean-pairwise-score division never divides by zero; and provided every
student carries one rank per project (a rank list of length ≥ p, so the
allocation step's `project_ranks[i]` lookups stay in range) and every
pairwise compatibility score is nonnegative (so that some combination beats
the -1 sentinel), a best-scoring combination exists at every step and
`form_teams` returns successfully.  (With scores at or below -1 the scan can
leave `best_combo = None` and the code faults; with a rank list shorter than
p the allocation step raises `IndexError`.) -/
theorem form_teams_total_on_valid (students : List Student) (p : ℕ)
    (hp : 1 ≤ p) (hn : 2 * p ≤ students.length)
    (hlen : ∀ s ∈ students, p ≤ s.project_ranks.length)
    (hcompat : ∀ a ∈ students, ∀ b ∈ students, 0 ≤ compute_compatibility a b) :
    (∀ s ∈ teamSizes students.length p, 2 ≤ s) ∧
    (∀ s ∈ teamSizes students.length p, ∀ rem c : List Student,
      c ∈ combinations s rem → allPairs c ≠ []) ∧
    ∃ ts, form_teams students p = .ok ts := by
  refine ⟨teamSizes_two_le students.length p (by omega) hn, ?_, ?_⟩
  · intro s hs rem c hc
    apply allPairs_ne_nil
    rw [mem_combinations_length s rem c hc]
    exact teamSizes_two_le students.length p (by omega) hn s hs
  · obtain ⟨ts, h1, -⟩ := form_teams_ok_full students p hp hn hlen hcompat
    exact ⟨ts, h1⟩

def xerx : Student := plainStudent "V" [0, 0, 0, 0, 900]

def yana : Student := plainStudent "W" [0, 0, 0, 0, 0]

/-- C10 (counterexample): with an out-of-scale rank the only combination's
mean pairwise score is ≤ -1, the sentinel start value of `best_score`, so
`best_combo` remains `None` and `form_teams` faults — even though n ≥ 2p
holds. -/
theorem form_teams_best_combo_none :
    (selectBest (buildCompat [xerx, yana]) (combinations 2 [xerx, yana])).1 = none ∧
    form_teams [xerx, yana] 1 = .error .selectionFailed := by
  constructor <;> with_unfolding_all decide

def olga : Student := plainStudent "O" [2, 2, 2, 2, 2]

def pete : Student := plainStudent "P" [2, 2, 2, 2, 2]

theorem form_teams_total_witness :
    (∀ s ∈ teamSizes ([olga, pete] : List Student).length 1, 2 ≤ s) ∧
    (∀ s ∈ teamSizes ([olga, pete] : List Student).length 1,
      ∀ rem c : List Student, c ∈ combinations s rem → allPairs c ≠ []) ∧
    ∃ ts, form_teams [olga, pete] 1 = .ok ts :=
  form_teams_total_on_valid [olga, pete] 1 (by norm_num) (by norm_num)
    (by intro s hs; fin_cases hs <;> norm_num [olga, pete, plainStudent])
    (by intro a ha b hb; fin_cases ha <;> fin_cases hb <;> with_unfolding_all decide)


end GroupMatcher
